import Mathlib

/-!
# Verification of `object-hash-map` (ObjectMap / ObjectSet / immutable facades)

A shallow embedding of the library's core:

* `JsVal`, `jsEquals`, `hashV` — the acyclic JavaScript values the default
  strategies traverse, the deep-equality function of `src/equals.ts`, and the
  deep hash of the hash module (`hash` / `hashString` / `hashObject` /
  `hashArray`).
* `Heap`, `ObjMap` and the `…E` operations — the bucketed hash table of
  `src/ObjectMap.ts`, modelled with an explicit node heap (JS objects are
  mutable heap records shared by reference; bucket arrays store references).
  Operations that can throw a `TypeError` in JS return `Except Unit _`.

Modelling conventions:

* JS 32-bit bitwise arithmetic (`Math.imul`, `^`, `>>>`, `|0`) is modelled on
  `Nat`/`Int` with explicit `% 2^32`; unsigned 32-bit residues track the JS
  bit patterns exactly.  The accumulator of `hashArray` is modelled exactly
  over `Int` (JS doubles are exact on these ranges except for sums beyond
  `2^53`, where JS may round; the consistency claims are unaffected).
* `charCodeAt` is modelled by the character's code point; this agrees with
  JS for all characters of the basic multilingual plane.
* JS numbers are modelled as integers (`Int`); `NaN` is a separate value.
* Constructor identity of tagged (class) instances is modelled by the
  constructor's name; `Set`/`Map` values are omitted from the value universe
  because their JS equality involves reference identity of members, which a
  pure term model cannot represent.
-/

set_option autoImplicit false

/-- Unsigned 32-bit residue of a product: JS `Math.imul` as a bit pattern. -/
def imul32 (x y : Nat) : Nat := (x * y) % 4294967296

/-- JS `ToInt32` (the `|0` coercion) on an exact integer. -/
def toInt32 (z : Int) : Int :=
  let r := z % 4294967296
  if r < 2147483648 then r else r - 4294967296

/--
The string-mixing hash (`hashString` in the source): two interleaved 32-bit
multiplicative accumulators, combined as `4294967296 * (2097151 & h2) + (h1 >>> 0)`.
`h1`/`h2` are tracked as unsigned 32-bit residues, which is exact for
`^`, `Math.imul`, `>>>` and `&` on 32-bit patterns.
-/
def hashString (s : String) : Nat :=
  let step := fun (p : Nat × Nat) (c : Char) =>
    let ch := c.toNat
    (imul32 (Nat.xor p.1 ch) 2654435761, imul32 (Nat.xor p.2 ch) 1597334677)
  let p := s.data.foldl step (3735928559, 1103416919)
  let a1 := imul32 (Nat.xor p.1 (p.1 >>> 16)) 2246822507
  let b1 := Nat.xor a1 (imul32 (Nat.xor p.2 (p.2 >>> 13)) 3266489909)
  let a2 := imul32 (Nat.xor p.2 (p.2 >>> 16)) 2246822507
  let b2 := Nat.xor a2 (imul32 (Nat.xor b1 (b1 >>> 13)) 3266489909)
  4294967296 * (b2 &&& 2097151) + b1

mutual

/-- Acyclic JS values traversed by the default `equals`/`hash` strategies. -/
inductive JsVal where
  | vnull
  | vundef
  | vbool (b : Bool)
  | vnum (n : Int)
  | vnan
  | vstr (s : String)
  | varr (xs : JsList)
  | vobj (fs : JsFields)
  | vtagged (ctor : String) (fs : JsFields)
  | vdate (t : Int)
  | vregexp (source flags : String)

/-- Elements of a JS array. -/
inductive JsList where
  | nil
  | cons (v : JsVal) (tl : JsList)

/-- Own enumerable string-keyed properties of a JS object, in property order. -/
inductive JsFields where
  | nil
  | cons (k : String) (v : JsVal) (tl : JsFields)

end

/-- `Object.keys`: the property names, in order. -/
def keysOfF : JsFields → List String
  | .nil => []
  | .cons k _ tl => k :: keysOfF tl

/-- Number of own properties (`Object.keys(x).length`). -/
def lenF (fs : JsFields) : Nat := (keysOfF fs).length

/-- Property access `x[k]` (first match; JS objects have unique keys). -/
def lookupF : JsFields → String → Option JsVal
  | .nil, _ => none
  | .cons k' v tl, k => if k' == k then some v else lookupF tl k

/-- The fields as an association list (for specification lemmas). -/
def toListF : JsFields → List (String × JsVal)
  | .nil => []
  | .cons k v tl => (k, v) :: toListF tl

mutual

/--
The default deep-equality function (`equals` in `src/equals.ts`).
The `a === b` fast path is modelled per primitive case; for structured values
reference identity is not representable and the structural branches decide.
The NaN fallback (`a !== a && b !== b`) yields `jsEquals vnan vnan = true`.
Branches in source order: constructor mismatch, arrays, dates, regexps,
then generic records (same own-key set, recursively equal values).
-/
def jsEquals (a b : JsVal) : Bool :=
  match a, b with
  | .vnull, .vnull => true
  | .vundef, .vundef => true
  | .vbool x, .vbool y => x == y
  | .vnum x, .vnum y => x == y
  | .vnan, .vnan => true
  | .vstr x, .vstr y => x == y
  | .varr xs, .varr ys => jsEqualsL xs ys
  | .vobj fa, .vobj fb => lenF fa == lenF fb && containedIn fa fb
  | .vtagged ca fa, .vtagged cb fb => ca == cb && (lenF fa == lenF fb && containedIn fa fb)
  | .vdate x, .vdate y => x == y
  | .vregexp s1 f1, .vregexp s2 f2 => s1 == s2 && f1 == f2
  | _, _ => false
termination_by sizeOf a + sizeOf b

/-- Array branch: same length and pairwise equal, order-sensitive. -/
def jsEqualsL (xs ys : JsList) : Bool :=
  match xs, ys with
  | .nil, .nil => true
  | .cons x xs', .cons y ys' => jsEquals x y && jsEqualsL xs' ys'
  | _, _ => false
termination_by sizeOf xs + sizeOf ys

/-- `for (key of keys(a)) { if (!hasOwn(b,key) || !equals(b[key], a[key])) return false }`. -/
def containedIn (fa fb : JsFields) : Bool :=
  match fa with
  | .nil => true
  | .cons k va tl => checkKeyIn fb k va && containedIn tl fb
termination_by sizeOf fa + sizeOf fb

/-- `Object.hasOwn(b, k) && equals(b[k], va)`, scanning `b`'s fields. -/
def checkKeyIn (fb : JsFields) (k : String) (va : JsVal) : Bool :=
  match fb with
  | .nil => false
  | .cons k' vb tl => if k' == k then jsEquals vb va else checkKeyIn tl k va
termination_by sizeOf fb + sizeOf va

end

/-- `Boolean`/`Bool` guard for duplicate property names: JS objects never have
duplicate own keys, so well-formed values satisfy this. -/
def nodupKeysB : List String → Bool
  | [] => true
  | k :: ks => !(ks.contains k) && nodupKeysB ks

mutual

/-- Well-formedness: every object layer has pairwise distinct property names
(guaranteed for every actual JS object). -/
def wfV : JsVal → Bool
  | .varr xs => wfL xs
  | .vobj fs => nodupKeysB (keysOfF fs) && wfF fs
  | .vtagged _ fs => nodupKeysB (keysOfF fs) && wfF fs
  | _ => true

def wfL : JsList → Bool
  | .nil => true
  | .cons v tl => wfV v && wfL tl

def wfF : JsFields → Bool
  | .nil => true
  | .cons _ v tl => wfV v && wfF tl

end

/-- A `data` element of `hashObject`: either the constructor name (a string)
or an already-computed hash (a number). `hashArray` re-applies `hash` to each,
i.e. `hashString` to the string or to the decimal rendering of the number. -/
def hashDataElem : String ⊕ Int → Int
  | .inl s => (hashString s : Int)
  | .inr z => (hashString (toString z) : Int)

/--
`hashObject` after the per-field hashes are known: sort the keys
(JS default string sort = code-unit lexicographic), build
`data = [ctorName?, hash k₁, hash v₁, …]` and fold it through `hashArray`
(`h = (92821*h + hash(elem)) | 0`).  The source hashes `value[key]` after
sorting; hashing is pure, so hashing each field first and then sorting the
keys is the same function.
-/
def hashObjFromPairs (ctorName : Option String) (pairs : List (String × Int)) : Int :=
  let ks := List.insertionSort (· ≤ ·) (pairs.map Prod.fst)
  let data : List (String ⊕ Int) :=
    (match ctorName with | some c => [Sum.inl c] | none => []) ++
      ks.flatMap (fun k => [Sum.inr ((hashString k : Int)), Sum.inr ((List.lookup k pairs).getD 0)])
  data.foldl (fun h x => toInt32 (92821 * h + hashDataElem x)) 0

mutual

/--
The default deep hash (`hash` in the source): primitives hash via their
string rendering through `hashString`; arrays via the order-sensitive
`hashArray` fold; objects via sorted-key `hashObject` (tagged instances
prepend the constructor name; `Date`/`RegExp` have no own enumerable keys,
so only their constructor names contribute).
-/
def hashV : JsVal → Int
  | .vnull => (hashString "null" : Int)
  | .vundef => (hashString "undefined" : Int)
  | .vbool b => (hashString (if b then "true" else "false") : Int)
  | .vnum n => (hashString (toString n) : Int)
  | .vnan => (hashString "NaN" : Int)
  | .vstr s => (hashString s : Int)
  | .varr xs => hashListV 0 xs
  | .vobj fs => hashObjFromPairs none (hashPairsF fs)
  | .vtagged c fs => hashObjFromPairs (some c) (hashPairsF fs)
  | .vdate _ => hashObjFromPairs (some "Date") []
  | .vregexp _ _ => hashObjFromPairs (some "RegExp") []

/-- `hashArray` on an array of values: `h = (92821*h + hash(x)) | 0` left to right. -/
def hashListV (h : Int) : JsList → Int
  | .nil => h
  | .cons v tl => hashListV (toInt32 (92821 * h + hashV v)) tl

/-- The `(key, hash value)` pairs of an object's fields, in property order. -/
def hashPairsF : JsFields → List (String × Int)
  | .nil => []
  | .cons k v tl => (k, hashV v) :: hashPairsF tl

end

/-! ## The hash table (`ObjectMap`), with an explicit node heap

JS bucket arrays hold references to mutable node objects
`{key, value, prev, next}`; several structures can only interfere through
such shared references.  The heap makes this explicit: nodes live at `Nat`
addresses, buckets store addresses, and the in-place mutations of the source
(`bucket[i].value = v`, `node.next = key`, …) are heap writes.  Addresses are
never freed, so an address once allocated always dereferences. -/

/-- The `{key, value, prev, next}` record stored in a bucket
(`ObjectMapNode` in the source). `prev`/`next` are logical keys. -/
structure Node (K V : Type) where
  key : K
  value : V
  prev : Option K
  next : Option K
deriving Repr, DecidableEq

/-- The allocation store of node objects; an address is an index. -/
structure Heap (K V : Type) where
  nodes : List (Node K V)
deriving Repr, DecidableEq

def Heap.read {K V : Type} (hp : Heap K V) (a : Nat) : Option (Node K V) :=
  hp.nodes[a]?

def Heap.write {K V : Type} (hp : Heap K V) (a : Nat) (nd : Node K V) : Heap K V :=
  ⟨hp.nodes.set a nd⟩

def Heap.alloc {K V : Type} (hp : Heap K V) (nd : Node K V) : Heap K V × Nat :=
  (⟨hp.nodes ++ [nd]⟩, hp.nodes.length)

def Heap.len {K V : Type} (hp : Heap K V) : Nat := hp.nodes.length

def hpEmpty {K V : Type} : Heap K V := ⟨[]⟩

/--
The `ObjectMap` instance state: bucket array (a bucket is a list of node
addresses; a JS `undefined` slot behaves exactly like an empty collision
list in every operation, so both are modelled as `[]`), the `first`/`last`
keys of the insertion-order chain, the load factor, the entry count and the
configured strategies.  The capacity is `buckets.length`.
-/
structure ObjMap (K V : Type) where
  buckets : List (List Nat)
  first : Option K
  last : Option K
  loadFactor : ℚ
  size : Nat
  eqFn : K → K → Bool
  hashFn : K → Nat

def ObjMap.capacity {K V : Type} (m : ObjMap K V) : Nat := m.buckets.length

/-- `protected hash(key, capacity = this.capacity)`: `this._hash(key) % capacity`.
The default strategies hash to nonnegative numbers, so `%` is `Nat.mod`. -/
def bucketIdx {K V : Type} (m : ObjMap K V) (key : K) (cap : Nat) : Nat :=
  m.hashFn key % cap

/-- All node addresses referenced from the bucket array. -/
def addrsOf {K V : Type} (m : ObjMap K V) : List Nat := m.buckets.flatten

/-- Scan a collision list for the first entry with `equals(key, entry.key)`.
(An unreadable address cannot occur: heap addresses are never freed.) -/
def findInBucket {K V : Type} (hp : Heap K V) (eqFn : K → K → Bool) (key : K) :
    List Nat → Option (Nat × Node K V)
  | [] => none
  | a :: rest =>
    match hp.read a with
    | none => findInBucket hp eqFn key rest
    | some nd => if eqFn key nd.key then some (a, nd) else findInBucket hp eqFn key rest

/-- Like `findInBucket`, also returning the position (for `splice`). -/
def findIdxInBucket {K V : Type} (hp : Heap K V) (eqFn : K → K → Bool) (key : K) :
    List Nat → Nat → Option (Nat × Nat × Node K V)
  | [], _ => none
  | a :: rest, i =>
    match hp.read a with
    | none => findIdxInBucket hp eqFn key rest (i + 1)
    | some nd =>
      if eqFn key nd.key then some (i, a, nd) else findIdxInBucket hp eqFn key rest (i + 1)

/-- `protected getNode(key)`: hash to a bucket, scan it with `equals`. -/
def getNodeH {K V : Type} (hp : Heap K V) (m : ObjMap K V) (key : K) : Option (Nat × Node K V) :=
  findInBucket hp m.eqFn key (m.buckets.getD (bucketIdx m key m.capacity) [])

/-- `get(key)`: `this.getNode(key)?.value`. -/
def getVal {K V : Type} (hp : Heap K V) (m : ObjMap K V) (key : K) : Option V :=
  (getNodeH hp m key).map (fun p => p.2.value)

/-- `has(key)`: `bucket.some(({key: k}) => this._equals(key, k))`. -/
def hasKey {K V : Type} (hp : Heap K V) (m : ObjMap K V) (key : K) : Bool :=
  (m.buckets.getD (bucketIdx m key m.capacity) []).any fun a =>
    match hp.read a with
    | some nd => m.eqFn key nd.key
    | none => false

/-- One step of `nodes()`: dereference the cursor key. A dangling key makes
the JS generator yield `undefined` and the consumer crash; that is `.error`.
`fuel` only guards against cyclic chains (where JS would not terminate). -/
def chainAux {K V : Type} (hp : Heap K V) (m : ObjMap K V) :
    Nat → Option K → Except Unit (List (Nat × Node K V))
  | _, none => .ok []
  | 0, some _ => .error ()
  | fuel + 1, some k =>
    match getNodeH hp m k with
    | none => .error ()
    | some (a, nd) => (chainAux hp m fuel nd.next).map (fun l => (a, nd) :: l)

/-- `protected *nodes()`: walk the successor chain from `first`. -/
def chainE {K V : Type} (hp : Heap K V) (m : ObjMap K V) :
    Except Unit (List (Nat × Node K V)) :=
  chainAux hp m (hp.len + 1) m.first

/-- `keys()`: the chain's keys, in order. -/
def keysE {K V : Type} (hp : Heap K V) (m : ObjMap K V) : Except Unit (List K) :=
  (chainE hp m).map (List.map (fun p => p.2.key))

/-- `values()`: the chain's values, in order. -/
def valuesE {K V : Type} (hp : Heap K V) (m : ObjMap K V) : Except Unit (List V) :=
  (chainE hp m).map (List.map (fun p => p.2.value))

/-- `entries()`: the chain's key-value pairs, in order. -/
def entriesE {K V : Type} (hp : Heap K V) (m : ObjMap K V) : Except Unit (List (K × V)) :=
  (chainE hp m).map (List.map (fun p => (p.2.key, p.2.value)))

/-- `this.size / this.capacity > this.loadFactor`, decided exactly:
`size/cap > lf ↔ size * lf.den > lf.num * cap` (the denominator is positive).
This also matches JS at `cap = 0`: `size/0` is `Infinity > lf` (true) when
`size > 0` and `NaN > lf` (false) when `size = 0`. -/
def loadExceeded (size cap : Nat) (lf : ℚ) : Bool :=
  (size : Int) * (lf.den : Int) > lf.num * (cap : Int)

/-- `protected resize(capacity)`: rebuild a fresh bucket array by walking the
chain (`this.nodes()`) and re-bucketing each node's address under the new
capacity. No node is created or mutated. -/
def resizeE {K V : Type} (hp : Heap K V) (m : ObjMap K V) (cap : Nat) :
    Except Unit (Heap K V × ObjMap K V) :=
  (chainE hp m).map fun chain =>
    let buckets := chain.foldl
      (fun bks p =>
        let h := m.hashFn p.2.key % cap
        bks.set h (bks.getD h [] ++ [p.1]))
      (List.replicate cap ([] : List Nat))
    (hp, { m with buckets := buckets })

/-- `if (this.first === null) this.first = key`. -/
def firstUpd {K : Type} (first : Option K) (key : K) : Option K :=
  match first with
  | none => some key
  | some f => some f

/--
`set(key, value)` of the source, line by line: scan the bucket; on a match
replace the value in place; otherwise push a fresh node `{key, value,
prev: this.last, next: null}`, bump the size, resize if the load factor is
exceeded, then link the old tail's `next` to `key` (a dangling `this.last`
makes `this.getNode(this.last)!.next = key` throw) and update `last`/`first`.
-/
def setE {K V : Type} (hp : Heap K V) (m : ObjMap K V) (key : K) (value : V) :
    Except Unit (Heap K V × ObjMap K V) :=
  let h := bucketIdx m key m.capacity
  let bucket := m.buckets.getD h []
  match findInBucket hp m.eqFn key bucket with
  | some (a, nd) => .ok (hp.write a { nd with value := value }, m)
  | none =>
    let al := hp.alloc { key := key, value := value, prev := m.last, next := none }
    let m1 : ObjMap K V :=
      { m with buckets := m.buckets.set h (bucket ++ [al.2]), size := m.size + 1 }
    (if loadExceeded m1.size m1.capacity m1.loadFactor
     then resizeE al.1 m1 (m1.capacity * 2)
     else .ok (al.1, m1)).bind fun p =>
      match p.2.last with
      | none =>
        .ok (p.1, { p.2 with last := some key, first := firstUpd p.2.first key })
      | some lk =>
        match getNodeH p.1 p.2 lk with
        | none => .error ()
        | some (la, lnd) =>
          .ok (p.1.write la { lnd with next := some key },
               { p.2 with last := some key, first := firstUpd p.2.first key })

/--
`delete(key)`: splice the matching entry out of its bucket, decrement the
size, relink the `prev`/`next` neighbours (dangling neighbour keys throw),
and update `first`/`last` when the removed entry was at either end
(`if (this._equals(this.first, key)) …`; a `null` head/tail compares unequal
to a key under the default `equals`).
-/
def deleteE {K V : Type} (hp : Heap K V) (m : ObjMap K V) (key : K) :
    Except Unit (Heap K V × ObjMap K V × Bool) :=
  let h := bucketIdx m key m.capacity
  let bucket := m.buckets.getD h []
  match findIdxInBucket hp m.eqFn key bucket 0 with
  | none => .ok (hp, m, false)
  | some (i, _, nd) =>
    let m1 : ObjMap K V :=
      { m with buckets := m.buckets.set h (bucket.eraseIdx i), size := m.size - 1 }
    (show Except Unit (Heap K V) from
      match nd.prev with
      | none => .ok hp
      | some pk =>
        match getNodeH hp m1 pk with
        | none => .error ()
        | some (pa, pnd) => .ok (hp.write pa { pnd with next := nd.next })).bind fun hp1 =>
      (show Except Unit (Heap K V) from
        match nd.next with
        | none => .ok hp1
        | some nk =>
          match getNodeH hp1 m1 nk with
          | none => .error ()
          | some (na, nnd) => .ok (hp1.write na { nnd with prev := nd.prev })).map fun hp2 =>
        let first' := match m1.first with
          | some f => if m.eqFn f key then nd.next else m1.first
          | none => m1.first
        let last' := match m1.last with
          | some l => if m.eqFn l key then nd.prev else m1.last
          | none => m1.last
        (hp2, { m1 with first := first', last := last' }, true)

/-- `clear()`: fresh empty buckets of the same capacity; count 0; no head/tail.
The heap is untouched (the old nodes are simply unreferenced). -/
def clearM {K V : Type} (m : ObjMap K V) : ObjMap K V :=
  { m with buckets := List.replicate m.capacity ([] : List Nat),
           size := 0, first := none, last := none }

/-- Rewrite the `prev`/`next` fields of the sorted nodes in place. -/
def relinkAux {K V : Type} (hp : Heap K V) (prevK : Option K) :
    List (Nat × Node K V) → Heap K V
  | [] => hp
  | (a, nd) :: rest =>
    let nextK := rest.head?.map (fun q => q.2.key)
    relinkAux (hp.write a { nd with prev := prevK, next := nextK }) (some nd.key) rest

/--
`sort(compareFn?)`: collect `[...this.nodes()]`, sort (a stable sort, as
`Array.prototype.sort`; with no comparator every node stringifies to the
same `"[object Object]"`, so the stable default sort keeps the order), then
`this.first = nodes[0].key` — which throws on an empty map — and rewrite the
chain links. Buckets are untouched.
-/
def sortE {K V : Type} (hp : Heap K V) (m : ObjMap K V)
    (cmp : Option (K → V → K → V → Int)) : Except Unit (Heap K V × ObjMap K V) :=
  (chainE hp m).bind fun chain =>
    let ns := match cmp with
      | none => chain
      | some c =>
        chain.mergeSort (fun p q => c p.2.key p.2.value q.2.key q.2.value ≤ 0)
    match ns with
    | [] => .error ()
    | n0 :: _ =>
      let lastK := match ns.getLast? with
        | some p => p.2.key
        | none => n0.2.key
      .ok (relinkAux hp none ns, { m with first := some n0.2.key, last := some lastK })

/-- Constructor options (`ObjectMapOptions`). -/
structure CtorOptions (K : Type) where
  initialCapacity : Option Nat
  loadFactor : Option ℚ
  eqOpt : Option (K → K → Bool)
  hashOpt : Option (K → Nat)

def noOpts {K : Type} : CtorOptions K := ⟨none, none, none, none⟩

/-- JS `x || d` on an optional number: `0` is falsy. -/
def jsOr (o : Option Nat) (d : Nat) : Nat :=
  match o with
  | some n => if n = 0 then d else n
  | none => d

/--
The constructor's non-copy branch with no iterable (`new ObjectMap(undefined, options)`):
`initialCapacity || 32` buckets, `loadFactor ?? 0.75`, strategies defaulted
to the structural `equals`/`hash` (passed in as `defEq`/`defHash`).
-/
def mkMapNoIter {K V : Type} (defEq : K → K → Bool) (defHash : K → Nat)
    (opts : CtorOptions K) : ObjMap K V :=
  { buckets := List.replicate (jsOr opts.initialCapacity 32) ([] : List Nat),
    first := none, last := none,
    loadFactor := opts.loadFactor.getD (mkRat 3 4),
    size := 0,
    eqFn := opts.eqOpt.getD defEq,
    hashFn := opts.hashOpt.getD defHash }

/-- Replay a list of entries through `set` (the constructor's seeding loop). -/
def replayE {K V : Type} (hp : Heap K V) (m : ObjMap K V) :
    List (K × V) → Except Unit (Heap K V × ObjMap K V)
  | [] => .ok (hp, m)
  | (k, v) :: rest => (setE hp m k v).bind fun p => replayE p.1 p.2 rest

/--
`new ObjectMap(list, options)` for an array-like iterable: arrays expose
`length`, so the initial capacity is `options.initialCapacity || list.length || 32`,
then the entries are replayed through `set`.
-/
def newMapFromList {K V : Type} (defEq : K → K → Bool) (defHash : K → Nat)
    (hp : Heap K V) (entries : List (K × V)) (opts : CtorOptions K) :
    Except Unit (Heap K V × ObjMap K V) :=
  let cap := jsOr opts.initialCapacity (jsOr (some entries.length) 32)
  replayE hp
    (mkMapNoIter defEq defHash
      { opts with initialCapacity := some cap } : ObjMap K V)
    entries

/--
`new ObjectMap(src, options)` when `src instanceof ObjectMap` (copy
construction): fresh buckets of the *source's* capacity, and the source's
`loadFactor`/`equals`/`hash` — the `options` argument is not consulted in
this branch — then the source's entries are replayed through `set`.
-/
def copyMap {K V : Type} (hp : Heap K V) (src : ObjMap K V) (_opts : CtorOptions K) :
    Except Unit (Heap K V × ObjMap K V) :=
  let c0 : ObjMap K V :=
    { buckets := List.replicate src.capacity ([] : List Nat),
      first := none, last := none,
      loadFactor := src.loadFactor, size := 0,
      eqFn := src.eqFn, hashFn := src.hashFn }
  (entriesE hp src).bind fun ents => replayE hp c0 ents

/-- `emptyClone()`: the constructor with `{initialCapacity: this.capacity, ...this.options}`. -/
def emptyCloneMap {K V : Type} (m : ObjMap K V) : ObjMap K V :=
  mkMapNoIter m.eqFn m.hashFn
    ⟨some m.capacity, some m.loadFactor, some m.eqFn, some m.hashFn⟩

/-! ## `ObjectSet` and the immutable facades -/

/-- `ObjectSet`: a thin wrapper storing each member as both key and value. -/
structure ObjSet (T : Type) where
  _map : ObjMap T T

/-- `add(value)`: `this._map.set(value, value)`. -/
def addS {T : Type} (hp : Heap T T) (s : ObjSet T) (v : T) :
    Except Unit (Heap T T × ObjSet T) :=
  (setE hp s._map v v).map fun p => (p.1, ⟨p.2⟩)

/-- `has(value)`. -/
def hasS {T : Type} (hp : Heap T T) (s : ObjSet T) (v : T) : Bool :=
  hasKey hp s._map v

/-- `new ObjectSet(list)`: the member list is wrapped in the `toMapIterable`
generator, which exposes neither `length` nor `size`, so the inner
`ObjectMap` starts at the default capacity 32 and the `[v, v]` pairs are
replayed through `set`. -/
def newSetFromList {T : Type} (defEq : T → T → Bool) (defHash : T → Nat)
    (hp : Heap T T) (vals : List T) : Except Unit (Heap T T × ObjSet T) :=
  (replayE hp (mkMapNoIter defEq defHash noOpts) (vals.map fun v => (v, v))).map
    fun p => (p.1, ⟨p.2⟩)

/-- `ObjectMap.filter(predicate)`: replay the entries that satisfy
`predicate(value, key)` into an `emptyClone`. -/
def filterMapE {K V : Type} (hp : Heap K V) (m : ObjMap K V) (pred : V → K → Bool) :
    Except Unit (Heap K V × ObjMap K V) :=
  (entriesE hp m).bind fun ents =>
    replayE hp (emptyCloneMap m) (ents.filter fun p => pred p.2 p.1)

/-- `ObjectSet.filter(predicate)`: `this._map.filter((_, k) => predicate(k))`. -/
def setFilterE {T : Type} (hp : Heap T T) (s : ObjSet T) (pred : T → Bool) :
    Except Unit (Heap T T × ObjSet T) :=
  (filterMapE hp s._map fun _ k => pred k).map fun p => (p.1, ⟨p.2⟩)

/-- `ObjectSet.clone()` = `new ObjectSet(this)`, i.e. a copy of the inner map. -/
def cloneSetE {T : Type} (hp : Heap T T) (s : ObjSet T) :
    Except Unit (Heap T T × ObjSet T) :=
  (copyMap hp s._map noOpts).map fun p => (p.1, ⟨p.2⟩)

/-- `intersection(other)`: `this.filter(value => other.has(value))`. -/
def intersectionE {T : Type} (hp : Heap T T) (s other : ObjSet T) :
    Except Unit (Heap T T × ObjSet T) :=
  setFilterE hp s fun v => hasS hp other v

/-- `difference(other)`: `this.filter(value => !other.has(value))`. -/
def differenceE {T : Type} (hp : Heap T T) (s other : ObjSet T) :
    Except Unit (Heap T T × ObjSet T) :=
  setFilterE hp s fun v => !hasS hp other v

/-- `union(other)`: clone this set, then `add` every key of `other` (adding
to the clone cannot affect `other`, so collecting `other.keys()` first is
the same computation as the source's interleaved loop). -/
def unionE {T : Type} (hp : Heap T T) (s other : ObjSet T) :
    Except Unit (Heap T T × ObjSet T) :=
  (cloneSetE hp s).bind fun p =>
    (keysE p.1 other._map).bind fun ks =>
      (replayE p.1 p.2._map (ks.map fun k => (k, k))).map fun q => (q.1, ⟨q.2⟩)

/-- `ObjectSet.keys()` (= its values), in insertion order. -/
def setKeysE {T : Type} (hp : Heap T T) (s : ObjSet T) : Except Unit (List T) :=
  keysE hp s._map

/-- `ImmutableMap.set`: clone the underlying map, `set` on the clone, then
wrap it — the wrapping constructor (`new ImmutableMap(map)`) copies again. -/
def immSetE {K V : Type} (hp : Heap K V) (m : ObjMap K V) (k : K) (v : V) :
    Except Unit (Heap K V × ObjMap K V) :=
  (copyMap hp m noOpts).bind fun p =>
    (setE p.1 p.2 k v).bind fun q => copyMap q.1 q.2 noOpts

/-- `ImmutableMap.delete`: clone, delete on the clone, wrap (copying again). -/
def immDeleteE {K V : Type} (hp : Heap K V) (m : ObjMap K V) (k : K) :
    Except Unit (Heap K V × ObjMap K V) :=
  (copyMap hp m noOpts).bind fun p =>
    (deleteE p.1 p.2 k).bind fun q => copyMap q.1 q.2.1 noOpts

/-- `ImmutableMap.update`: `this.set(key, updater(this.get(key), key))` —
the updater's argument is the *original's* `get`, then `set` clones, sets on
the clone and wraps (copying again). -/
def immUpdateE {K V : Type} (hp : Heap K V) (m : ObjMap K V) (k : K)
    (f : Option V → K → V) : Except Unit (Heap K V × ObjMap K V) :=
  (copyMap hp m noOpts).bind fun p =>
    (setE p.1 p.2 k (f (getVal hp m k) k)).bind fun q => copyMap q.1 q.2 noOpts

/-- `ImmutableMap.clear`: wrap `this._map.emptyClone()` (zero entries; the
wrapping copy replays nothing). The heap is untouched. -/
def immClearE {K V : Type} (hp : Heap K V) (m : ObjMap K V) :
    Heap K V × ObjMap K V :=
  (hp, emptyCloneMap m)

/-- `ImmutableSet.add`: copy the inner set, `add` on the copy, wrap
(copying again). -/
def immAddE {T : Type} (hp : Heap T T) (s : ObjSet T) (v : T) :
    Except Unit (Heap T T × ObjSet T) :=
  (copyMap hp s._map noOpts).bind fun p =>
    (setE p.1 p.2 v v).bind fun q =>
      (copyMap q.1 q.2 noOpts).map fun r => (r.1, ⟨r.2⟩)

/-- `ImmutableMap.sort`: `this._map.clone().sort(compareFn)` — clone the
underlying map, sort the clone in place, then wrap it (the wrapping
constructor copies again). -/
def immSortE {K V : Type} (hp : Heap K V) (m : ObjMap K V)
    (cmp : Option (K → V → K → V → Int)) : Except Unit (Heap K V × ObjMap K V) :=
  (copyMap hp m noOpts).bind fun p =>
    (sortE p.1 p.2 cmp).bind fun q => copyMap q.1 q.2 noOpts

/-- `ImmutableSet.delete`: copy the inner set, `delete` on the copy, wrap
(copying again). -/
def immSDeleteE {T : Type} (hp : Heap T T) (s : ObjSet T) (v : T) :
    Except Unit (Heap T T × ObjSet T) :=
  (copyMap hp s._map noOpts).bind fun p =>
    (deleteE p.1 p.2 v).bind fun q =>
      (copyMap q.1 q.2.1 noOpts).map fun r => (r.1, ⟨r.2⟩)

/-- `ImmutableSet.clear`: copy the inner set, `clear` the copy (which only
swaps in fresh empty buckets and touches no heap cell), wrap (copying
again — the wrapping copy replays nothing). -/
def immSClearE {T : Type} (hp : Heap T T) (s : ObjSet T) :
    Except Unit (Heap T T × ObjSet T) :=
  (copyMap hp s._map noOpts).bind fun p =>
    (copyMap p.1 (clearM p.2) noOpts).map fun r => (r.1, ⟨r.2⟩)

/-- The loop body of `symmetricDifference`: for each key of `other`, toggle
membership on the clone (`delete` it if present, `add` it otherwise). -/
def symDiffAux {T : Type} (hp : Heap T T) (c : ObjMap T T) :
    List T → Except Unit (Heap T T × ObjMap T T)
  | [] => .ok (hp, c)
  | k :: rest =>
    if hasKey hp c k then
      (deleteE hp c k).bind fun q => symDiffAux q.1 q.2.1 rest
    else
      (setE hp c k k).bind fun q => symDiffAux q.1 q.2 rest

/-- `symmetricDifference(other)`: clone this set, then toggle every key of
`other` on the clone (mutating the clone cannot affect `other`, so
collecting `other.keys()` first is the same computation as the source's
interleaved loop). -/
def symmetricDifferenceE {T : Type} (hp : Heap T T) (s other : ObjSet T) :
    Except Unit (Heap T T × ObjSet T) :=
  (cloneSetE hp s).bind fun p =>
    (keysE p.1 other._map).bind fun ks =>
      (symDiffAux p.1 p.2._map ks).map fun q => (q.1, ⟨q.2⟩)

/-! ## The default strategies at integer keys

The claims about the table under its default configuration are evaluated at
integer keys; `equals` on two numbers is `a === b` and `hash` is
`hashString(String(n))`. -/

/-- The default `equals`, restricted to (non-NaN) numbers. -/
def jsEqInt (a b : Int) : Bool := a == b

/-- The default `hash`, restricted to integer-valued numbers. -/
def jsHashInt (n : Int) : Nat := hashString (toString n)

/-- `new ObjectMap()` over integer keys and values. -/
def dfltMapInt : ObjMap Int Int := mkMapNoIter jsEqInt jsHashInt noOpts

/-! ## The head/tail/chain invariant (stated from the specification)

This predicate is *modelled from the spec*, not from the source: head/tail
are both null exactly when the table is empty, otherwise both refer to
entries present in the bucket array, and the chain starting at head
and ending at tail visits every stored entry exactly once. -/

/-- Multiset equality of address lists. -/
def multisetEqNat : List Nat → List Nat → Bool
  | [], [] => true
  | [], _ :: _ => false
  | a :: as', bs => if bs.contains a then multisetEqNat as' (bs.erase a) else false

/-- The spec's head/tail/chain invariant, decidably. -/
def specInvariantB {K V : Type} (hp : Heap K V) (m : ObjMap K V) : Bool :=
  match m.first, m.last with
  | none, none => (addrsOf m).isEmpty
  | some f, some l =>
    (match chainE hp m with
     | .error _ => false
     | .ok ch =>
       ((getNodeH hp m f).map Prod.fst == ch.head?.map Prod.fst) &&
       ((getNodeH hp m l).map Prod.fst == ch.getLast?.map Prod.fst) &&
       (getNodeH hp m f).isSome && (getNodeH hp m l).isSome &&
       multisetEqNat (ch.map Prod.fst) (addrsOf m))
  | _, _ => false

/-! ## Validity, observables, and concrete scenarios used by the claims -/

/-- Every bucket address is allocated (true of every reachable JS state). -/
def validB {K V : Type} (hp : Heap K V) (m : ObjMap K V) : Bool :=
  (addrsOf m).all fun a => decide (a < hp.len)

/-- The observable state of a table at a query key: its size and the results
of `get`/`has`. -/
def observablesAt {K V : Type} (hp : Heap K V) (m : ObjMap K V) (q : K) :
    Nat × Option V × Bool :=
  (m.size, getVal hp m q, hasKey hp m q)

/-- 25 entries `(1,1) … (25,25)`: under the default configuration the 25th
`set` pushes `25/32` past the 0.75 load factor. -/
def c1pairs : List (Int × Int) := (List.range 25).map fun i => ((i + 1 : Int), (i + 1 : Int))

/-- The 25-insert run on a default-configured table. -/
def c1run : Except Unit (Option Int × Option Int × Nat) := do
  let p ← replayE hpEmpty dfltMapInt c1pairs
  pure (getVal p.1 p.2 25, getVal p.1 p.2 1, p.2.size)

/-- `new ObjectMap(undefined, {initialCapacity: 1})`: the smallest table whose
very first insertion triggers a resize. -/
def capOneMap : ObjMap Int Int := mkMapNoIter jsEqInt jsHashInt ⟨some 1, none, none, none⟩

/-- Copy-construct (from a default table holding `(1,10)`) with explicit
overriding options `{initialCapacity: 100, loadFactor: 1}`, observing the
resulting load factor, capacity, and `get(1)`. -/
def c6run : Except Unit (ℚ × Nat × Option Int) := do
  let p ← setE hpEmpty dfltMapInt 1 10
  let q ← copyMap p.1 p.2 ⟨some 100, some 1, none, none⟩
  pure (q.2.loadFactor, q.2.capacity, getVal q.1 q.2 1)

/-- Sets built from `[1,2,3]` and `[2,3,4]` (in one heap), and the keys of
their intersection, union and difference. -/
def c9run : Except Unit (List Int × List Int × List Int) := do
  let p1 ← newSetFromList jsEqInt jsHashInt hpEmpty [1, 2, 3]
  let p2 ← newSetFromList jsEqInt jsHashInt p1.1 [2, 3, 4]
  let int ← intersectionE p2.1 p1.2 p2.2
  let uni ← unionE p2.1 p1.2 p2.2
  let dif ← differenceE p2.1 p1.2 p2.2
  let ki ← setKeysE int.1 int.2
  let ku ← setKeysE uni.1 uni.2
  let kd ← setKeysE dif.1 dif.2
  pure (ki, ku, kd)

/-- A one-entry default table (for the immutability witness). -/
def c7pack : Heap Int Int × ObjMap Int Int :=
  match setE hpEmpty dfltMapInt 1 10 with
  | .ok p => p
  | .error _ => (hpEmpty, dfltMapInt)

/-- The one-entry table viewed as an `ObjectSet` state (for the `add` facade). -/
def c7set : ObjSet Int := ⟨c7pack.2⟩

/-- A concrete table over keys-with-identity `(Int × Int)` (first component
compared by `equals`, second distinguishing object instances), holding the
entry `(1,10) ↦ 7` at address 5-free heap slot 0. -/
def c10hp : Heap (Int × Int) Int := ⟨[⟨(1, 10), 7, none, none⟩]⟩

def c10m : ObjMap (Int × Int) Int :=
  { buckets := [[0], [], [], []],
    first := some (1, 10), last := some (1, 10),
    loadFactor := (mkRat 3 4), size := 1,
    eqFn := fun a b => a.1 == b.1,
    hashFn := fun _ => 0 }

/-- `{a: 1, b: "2"}` — a plain object. -/
def wobjA : JsVal := .vobj (.cons "a" (.vnum 1) (.cons "b" (.vstr "2") .nil))

/--
**C1** (code bug). Round-trip fails when an insertion triggers a resize:
under the default configuration (capacity 32, load factor 0.75, default
strategies), after `set(1,1) … set(25,25)` the 25th insertion resizes, but
`resize` walks the order chain *before* the new entry is linked, so the
fresh bucket array loses the just-inserted node: `get(25)` returns
`undefined` (while `size` is 25 and `get(1)` still works), contradicting
"get(k) returns the value of the last set … including the resize case".
-/
theorem c1_resize_drops_newest_key : c1run = .ok (none, some 1, 25) := by
  rfl

/--
**C2** (code bug). The head/tail/chain invariant (stated from the spec as
`specInvariantB`) holds of a freshly constructed table but is violated by a
`set` that triggers a resize: with `initialCapacity = 1`, after one `set`
the tail key has no entry in the bucket array at all (the resize dropped
it), so head/tail no longer refer to stored entries and the chain does not
visit the stored entries exactly once.
-/
theorem c2_invariant_broken_by_resizing_set :
    specInvariantB hpEmpty capOneMap = true ∧
      (setE hpEmpty capOneMap 1 10).map (fun p => specInvariantB p.1 p.2) = .ok false := by
  exact ⟨rfl, rfl⟩

/--
**C3** (code bug). `[...keys()]` equals first-occurrence insertion order for
inserts that stay below the load factor (here `[1, 2]`), but after an insert
that triggers a resize the chain's tail key dangles and the `keys()` walk
throws instead of producing the insertion order.
-/
theorem c3_keys_iteration_crashes_after_resize :
    ((do
        let p ← replayE hpEmpty dfltMapInt [(1, 10), (2, 20)]
        keysE p.1 p.2 : Except Unit (List Int)) = .ok [1, 2]) ∧
      ((do
        let p ← setE hpEmpty capOneMap 1 10
        keysE p.1 p.2 : Except Unit (List Int)) = .error ()) := by
  exact ⟨rfl, rfl⟩

/--
**C5** (code bug). Operations do throw for valid inputs: `sort()` with no
comparator on an *empty* default table evaluates `nodes[0].key` on an empty
array and throws; and a second `set` on a table corrupted by a
resize-triggering first `set` throws while relinking the dangling tail.
-/
theorem c5_sort_empty_and_set_after_resize_throw :
    (sortE hpEmpty dfltMapInt none = .error ()) ∧
      ((do
        let p ← setE hpEmpty capOneMap 1 10
        let q ← setE p.1 p.2 2 20
        pure q.2.size : Except Unit Nat) = .error ()) := by
  exact ⟨rfl, rfl⟩

/--
**C6** (code bug). Copy construction ignores the explicit options argument:
copying a default table (load factor 3/4, capacity 32) with
`{initialCapacity: 100, loadFactor: 1}` still yields load factor 3/4 and
capacity 32 — not the overridden 1 and 100 that the claim (and the
repository's own `copy constructor with options` test) expects.
-/
theorem c6_copy_construction_ignores_options :
    c6run = .ok ((mkRat 3 4), 32, some 10) ∧
      c6run ≠ .ok ((mkRat 1 1), 100, some 10) := by
  refine ⟨rfl, fun h => ?_⟩
  rw [show c6run = .ok ((mkRat 3 4), 32, some 10) from rfl] at h
  simp at h

/--
**C9** (confirmed). Over the sets built from `[1,2,3]` and `[2,3,4]`,
`intersection`, `union` and `difference` yield exactly `[2,3]`,
`[1,2,3,4]` and `[1]`, each in left-operand-biased insertion order.
-/
theorem c9_set_algebra_on_123_234 : c9run = .ok ([2, 3], [1, 2, 3, 4], [1]) := by
  rfl

/-! ## Lemmas about the value model (towards C4 and C8) -/

theorem beqSymm {α : Type} [DecidableEq α] (x y : α) : (x == y) = (y == x) := by
  by_cases h : x = y
  · subst h; rfl
  · simp [beq_eq_false_iff_ne.mpr h, beq_eq_false_iff_ne.mpr (Ne.symm h)]

theorem containsB_iff (l : List String) (a : String) : l.contains a = true ↔ a ∈ l :=
  List.elem_iff

theorem keysOfF_eq_map_fst : ∀ fs : JsFields, keysOfF fs = (toListF fs).map Prod.fst
  | .nil => rfl
  | .cons k v tl => by simp [keysOfF, toListF, keysOfF_eq_map_fst tl]

theorem lookupF_mem : ∀ (fs : JsFields) (k : String) (v : JsVal),
    lookupF fs k = some v → (k, v) ∈ toListF fs
  | .nil, k, v => by intro h; simp [lookupF] at h
  | .cons k' v' tl, k, v => by
    intro h
    simp only [lookupF] at h
    by_cases hk : k' == k
    · rw [if_pos hk] at h
      cases h
      simp only [beq_iff_eq] at hk
      subst hk
      simp [toListF]
    · rw [if_neg hk] at h
      simp only [toListF, List.mem_cons]
      exact Or.inr (lookupF_mem tl k v h)

theorem lookupF_isSome_of_mem_keys : ∀ (fs : JsFields) (k : String),
    k ∈ keysOfF fs → (lookupF fs k).isSome = true
  | .nil, k => by intro h; simp [keysOfF] at h
  | .cons k' v' tl, k => by
    intro h
    simp only [keysOfF, List.mem_cons] at h
    simp only [lookupF]
    rcases h with h | h
    · subst h; simp
    · by_cases hk : k' == k
      · rw [if_pos hk]; rfl
      · rw [if_neg hk]; exact lookupF_isSome_of_mem_keys tl k h

theorem mem_keys_of_lookupF_isSome : ∀ (fs : JsFields) (k : String),
    (lookupF fs k).isSome = true → k ∈ keysOfF fs
  | .nil, k => by intro h; simp [lookupF] at h
  | .cons k' v' tl, k => by
    intro h
    simp only [lookupF] at h
    simp only [keysOfF, List.mem_cons]
    by_cases hk : k' == k
    · simp only [beq_iff_eq] at hk; exact Or.inl hk.symm
    · rw [if_neg hk] at h
      exact Or.inr (mem_keys_of_lookupF_isSome tl k h)

theorem lookupF_eq_of_mem_nodup : ∀ (fs : JsFields) (k : String) (v : JsVal),
    nodupKeysB (keysOfF fs) = true → (k, v) ∈ toListF fs → lookupF fs k = some v
  | .nil, k, v => by intro _ h; simp [toListF] at h
  | .cons k' v' tl, k, v => by
    intro hnd h
    simp only [keysOfF, nodupKeysB, Bool.and_eq_true, Bool.not_eq_true'] at hnd
    simp only [toListF, List.mem_cons] at h
    simp only [lookupF]
    rcases h with h | h
    · cases h; simp
    · by_cases hk : k' == k
      · exfalso
        simp only [beq_iff_eq] at hk
        subst hk
        have hmem : k' ∈ keysOfF tl := by
          rw [keysOfF_eq_map_fst]
          exact List.mem_map.mpr ⟨(k', v), h, rfl⟩
        have := (containsB_iff (keysOfF tl) k').mpr hmem
        rw [this] at hnd
        exact absurd hnd.1 (by simp)
      · rw [if_neg hk]
        exact lookupF_eq_of_mem_nodup tl k v hnd.2 h

theorem sizeOf_mem_toListF : ∀ (fs : JsFields) (k : String) (v : JsVal),
    (k, v) ∈ toListF fs → sizeOf v < sizeOf fs
  | .nil, k, v => by intro h; simp [toListF] at h
  | .cons k' v' tl, k, v => by
    intro h
    simp only [toListF, List.mem_cons] at h
    rcases h with h | h
    · cases h; simp; omega
    · have := sizeOf_mem_toListF tl k v h
      simp
      omega

theorem nodupKeysB_iff : ∀ l : List String, nodupKeysB l = true ↔ l.Nodup := by
  intro l
  induction l with
  | nil => simp [nodupKeysB]
  | cons k ks ih =>
    simp only [nodupKeysB, Bool.and_eq_true, Bool.not_eq_true', List.nodup_cons]
    rw [ih]
    constructor
    · rintro ⟨h1, h2⟩
      refine ⟨fun hm => ?_, h2⟩
      have := (containsB_iff ks k).mpr hm
      rw [this] at h1
      exact absurd h1 (by simp)
    · rintro ⟨h1, h2⟩
      refine ⟨?_, h2⟩
      by_cases hc : ks.contains k = true
      · exact absurd ((containsB_iff ks k).mp hc) h1
      · simpa using hc

theorem wfF_mem : ∀ (fs : JsFields) (k : String) (v : JsVal),
    wfF fs = true → (k, v) ∈ toListF fs → wfV v = true
  | .nil, k, v => by intro _ h; simp [toListF] at h
  | .cons k' v' tl, k, v => by
    intro hwf h
    simp only [wfF, Bool.and_eq_true] at hwf
    simp only [toListF, List.mem_cons] at h
    rcases h with h | h
    · cases h; exact hwf.1
    · exact wfF_mem tl k v hwf.2 h

theorem containedIn_iff : ∀ fa fb : JsFields,
    (containedIn fa fb = true ↔ ∀ p ∈ toListF fa, checkKeyIn fb p.1 p.2 = true)
  | .nil, fb => by simp [containedIn, toListF]
  | .cons k va tl, fb => by
    rw [containedIn]
    simp only [Bool.and_eq_true, toListF, List.mem_cons]
    rw [containedIn_iff tl fb]
    constructor
    · rintro ⟨h1, h2⟩ p hp
      rcases hp with hp | hp
      · subst hp; exact h1
      · exact h2 p hp
    · intro h
      exact ⟨h (k, va) (Or.inl rfl), fun p hp => h p (Or.inr hp)⟩

theorem checkKeyIn_iff : ∀ (fb : JsFields) (k : String) (va : JsVal),
    (checkKeyIn fb k va = true ↔ ∃ vb, lookupF fb k = some vb ∧ jsEquals vb va = true)
  | .nil, k, va => by simp [checkKeyIn, lookupF]
  | .cons k' vb tl, k, va => by
    rw [checkKeyIn]
    simp only [lookupF]
    by_cases hk : k' == k
    · rw [if_pos hk, if_pos hk]
      constructor
      · intro h; exact ⟨vb, rfl, h⟩
      · rintro ⟨vb', hvb', h⟩; cases hvb'; exact h
    · rw [if_neg hk, if_neg hk]
      exact checkKeyIn_iff tl k va

/-- Two nodup key lists with equal length, one contained in the other, have
the same members. -/
theorem keys_mem_iff_of_sub (as bs : List String) (na : as.Nodup) (nb : bs.Nodup)
    (hlen : as.length = bs.length) (hsub : ∀ k ∈ as, k ∈ bs) :
    ∀ k, k ∈ as ↔ k ∈ bs := by
  have hsubF : as.toFinset ⊆ bs.toFinset := by
    intro x hx
    rw [List.mem_toFinset] at hx ⊢
    exact hsub x hx
  have hcard : bs.toFinset.card ≤ as.toFinset.card := by
    rw [List.toFinset_card_of_nodup na, List.toFinset_card_of_nodup nb]
    omega
  have heq := Finset.eq_of_subset_of_card_le hsubF hcard
  intro k
  constructor
  · exact hsub k
  · intro h
    have : k ∈ bs.toFinset := List.mem_toFinset.mpr h
    rw [← heq] at this
    exact List.mem_toFinset.mp this

/-- Reflexivity of the array branch, given reflexivity for smaller values. -/
theorem jsEqualsL_refl (n : Nat)
    (ih : ∀ a : JsVal, sizeOf a ≤ n → wfV a = true → jsEquals a a = true) :
    ∀ xs : JsList, sizeOf xs ≤ n + 1 → wfL xs = true → jsEqualsL xs xs = true
  | .nil => by intros; rw [jsEqualsL]
  | .cons x xs => by
    intro hsz hw
    simp only [wfL, Bool.and_eq_true] at hw
    simp only [JsList.cons.sizeOf_spec] at hsz
    rw [jsEqualsL]
    simp only [Bool.and_eq_true]
    exact ⟨ih x (by omega) hw.1, jsEqualsL_refl n ih xs (by omega) hw.2⟩

/-- Reflexivity of the record branch, given reflexivity for smaller values. -/
theorem containedIn_refl (n : Nat)
    (ih : ∀ a : JsVal, sizeOf a ≤ n → wfV a = true → jsEquals a a = true)
    (fa : JsFields) (hsz : sizeOf fa ≤ n + 1)
    (hnd : nodupKeysB (keysOfF fa) = true) (hw : wfF fa = true) :
    containedIn fa fa = true := by
  rw [containedIn_iff]
  rintro ⟨k, va⟩ hp
  rw [checkKeyIn_iff]
  refine ⟨va, lookupF_eq_of_mem_nodup fa k va hnd hp, ?_⟩
  have h1 : sizeOf va < sizeOf fa := sizeOf_mem_toListF fa k va hp
  exact ih va (by omega) (wfF_mem fa k va hw hp)

/-- `equals(x, x)` is `true` for every well-formed value (bounded by size). -/
theorem jsEquals_refl_bounded : ∀ n : Nat, ∀ a : JsVal, sizeOf a ≤ n →
    wfV a = true → jsEquals a a = true := by
  intro n
  induction n with
  | zero =>
    intro a hsz
    exfalso
    cases a <;> simp at hsz
  | succ n ihn =>
    intro a hsz hwa
    cases a with
    | vnull => rw [jsEquals]
    | vundef => rw [jsEquals]
    | vbool x => rw [jsEquals]; simp
    | vnum x => rw [jsEquals]; simp
    | vnan => rw [jsEquals]
    | vstr x => rw [jsEquals]; simp
    | vdate x => rw [jsEquals]; simp
    | vregexp s1 f1 => rw [jsEquals]; simp
    | varr xs =>
      simp only [wfV] at hwa
      simp only [JsVal.varr.sizeOf_spec] at hsz
      rw [jsEquals]
      exact jsEqualsL_refl n ihn xs (by omega) hwa
    | vobj fa =>
      simp only [wfV, Bool.and_eq_true] at hwa
      simp only [JsVal.vobj.sizeOf_spec] at hsz
      rw [jsEquals]
      simp only [Bool.and_eq_true, beq_self_eq_true, true_and]
      exact containedIn_refl n ihn fa (by omega) hwa.1 hwa.2
    | vtagged ca fa =>
      simp only [wfV, Bool.and_eq_true] at hwa
      simp only [JsVal.vtagged.sizeOf_spec] at hsz
      rw [jsEquals]
      simp only [Bool.and_eq_true, beq_self_eq_true, true_and]
      exact containedIn_refl n ihn fa (by omega) hwa.1 hwa.2

/-- One direction of record symmetry, given symmetry for smaller values. -/
theorem containedIn_symm (n : Nat)
    (ihsym : ∀ a b : JsVal, sizeOf a + sizeOf b ≤ n → wfV a = true → wfV b = true →
      jsEquals a b = jsEquals b a)
    (fa fb : JsFields) (hsz : sizeOf fa + sizeOf fb ≤ n + 2)
    (hna : nodupKeysB (keysOfF fa) = true) (hnb : nodupKeysB (keysOfF fb) = true)
    (hwa : wfF fa = true) (hwb : wfF fb = true)
    (hlen : lenF fa = lenF fb) (hc : containedIn fa fb = true) :
    containedIn fb fa = true := by
  have hsub : ∀ k ∈ keysOfF fa, k ∈ keysOfF fb := by
    intro k hk
    rw [keysOfF_eq_map_fst] at hk
    obtain ⟨p, hp, hpk⟩ := List.mem_map.mp hk
    obtain ⟨vb, hvb, _⟩ := (checkKeyIn_iff fb p.1 p.2).mp ((containedIn_iff fa fb).mp hc p hp)
    have : (lookupF fb p.1).isSome = true := by rw [hvb]; rfl
    rw [← hpk]
    exact mem_keys_of_lookupF_isSome fb p.1 this
  have hiff := keys_mem_iff_of_sub _ _ ((nodupKeysB_iff _).mp hna)
    ((nodupKeysB_iff _).mp hnb) hlen hsub
  rw [containedIn_iff]
  rintro ⟨k, vb⟩ hpb
  have hkb : k ∈ keysOfF fb := by
    rw [keysOfF_eq_map_fst]
    exact List.mem_map.mpr ⟨(k, vb), hpb, rfl⟩
  have hka : k ∈ keysOfF fa := (hiff k).mpr hkb
  obtain ⟨va, hva⟩ := Option.isSome_iff_exists.mp (lookupF_isSome_of_mem_keys fa k hka)
  have hmema : (k, va) ∈ toListF fa := lookupF_mem fa k va hva
  obtain ⟨vb', hvb', heq⟩ :=
    (checkKeyIn_iff fb k va).mp ((containedIn_iff fa fb).mp hc (k, va) hmema)
  have hvb'' : lookupF fb k = some vb := lookupF_eq_of_mem_nodup fb k vb hnb hpb
  rw [hvb''] at hvb'
  cases hvb'
  have h1 : sizeOf va < sizeOf fa := sizeOf_mem_toListF fa k va hmema
  have h2 : sizeOf vb < sizeOf fb := sizeOf_mem_toListF fb k vb hpb
  have hsymm : jsEquals va vb = jsEquals vb va :=
    ihsym va vb (by omega) (wfF_mem fa k va hwa hmema) (wfF_mem fb k vb hwb hpb)
  rw [checkKeyIn_iff]
  exact ⟨va, hva, by rw [hsymm]; exact heq⟩

/-- Symmetry of the array branch, given symmetry for smaller values. -/
theorem jsEqualsL_symm (n : Nat)
    (ihsym : ∀ a b : JsVal, sizeOf a + sizeOf b ≤ n → wfV a = true → wfV b = true →
      jsEquals a b = jsEquals b a) :
    ∀ xs ys : JsList, sizeOf xs + sizeOf ys ≤ n + 2 → wfL xs = true → wfL ys = true →
      jsEqualsL xs ys = jsEqualsL ys xs
  | .nil, .nil => by intros; rfl
  | .nil, .cons y ys => by intros; simp [jsEqualsL]
  | .cons x xs, .nil => by intros; simp [jsEqualsL]
  | .cons x xs, .cons y ys => by
    intro hsz hwx hwy
    simp only [wfL, Bool.and_eq_true] at hwx hwy
    simp only [JsList.cons.sizeOf_spec] at hsz
    rw [jsEqualsL]
    rw [show jsEqualsL (JsList.cons y ys) (JsList.cons x xs)
        = (jsEquals y x && jsEqualsL ys xs) from by rw [jsEqualsL]]
    rw [ihsym x y (by omega) hwx.1 hwy.1,
        jsEqualsL_symm n ihsym xs ys (by omega) hwx.2 hwy.2]

/-- `equals` is symmetric on well-formed values (bounded by total size). -/
theorem jsEquals_symm_bounded : ∀ n : Nat, ∀ a b : JsVal, sizeOf a + sizeOf b ≤ n →
    wfV a = true → wfV b = true → jsEquals a b = jsEquals b a := by
  intro n
  induction n with
  | zero =>
    intro a b hsz
    exfalso
    cases a <;> simp at hsz <;> omega
  | succ n ihn =>
    intro a b hsz hwa hwb
    have hfields : ∀ fa fb : JsFields,
        sizeOf fa + sizeOf fb ≤ n →
        nodupKeysB (keysOfF fa) = true → nodupKeysB (keysOfF fb) = true →
        wfF fa = true → wfF fb = true →
        (lenF fa == lenF fb && containedIn fa fb)
          = (lenF fb == lenF fa && containedIn fb fa) := by
      intro fa fb hsz' hna hnb hwfa hwfb
      rw [beqSymm (lenF fa) (lenF fb)]
      by_cases hl : lenF fb = lenF fa
      · have hbeq : (lenF fb == lenF fa) = true := beq_iff_eq.mpr hl
        rw [hbeq]
        simp only [Bool.true_and]
        cases hab : containedIn fa fb with
        | true =>
          exact (containedIn_symm n ihn fa fb (by omega) hna hnb hwfa hwfb hl.symm hab).symm
        | false =>
          cases hba : containedIn fb fa with
          | true =>
            exact absurd (containedIn_symm n ihn fb fa (by omega) hnb hna hwfb hwfa hl hba)
              (by rw [hab]; simp)
          | false => rfl
      · have hbeq : (lenF fb == lenF fa) = false := beq_eq_false_iff_ne.mpr hl
        rw [hbeq]
        simp
    cases a with
    | vnull =>
      cases b
      case vnull => rfl
      all_goals simp [jsEquals]
    | vundef =>
      cases b
      case vundef => rfl
      all_goals simp [jsEquals]
    | vbool x =>
      cases b
      case vbool y => rw [jsEquals, jsEquals]; exact beqSymm x y
      all_goals simp [jsEquals]
    | vnum x =>
      cases b
      case vnum y => rw [jsEquals, jsEquals]; exact beqSymm x y
      all_goals simp [jsEquals]
    | vnan =>
      cases b
      case vnan => rfl
      all_goals simp [jsEquals]
    | vstr x =>
      cases b
      case vstr y => rw [jsEquals, jsEquals]; exact beqSymm x y
      all_goals simp [jsEquals]
    | vdate x =>
      cases b
      case vdate y => rw [jsEquals, jsEquals]; exact beqSymm x y
      all_goals simp [jsEquals]
    | vregexp s1 f1 =>
      cases b
      case vregexp s2 f2 => rw [jsEquals, jsEquals, beqSymm s1, beqSymm f1]
      all_goals simp [jsEquals]
    | varr xs =>
      cases b
      case varr ys =>
        simp only [wfV] at hwa hwb
        simp only [JsVal.varr.sizeOf_spec] at hsz
        rw [jsEquals, jsEquals]
        exact jsEqualsL_symm n ihn xs ys (by omega) hwa hwb
      all_goals simp [jsEquals]
    | vobj fa =>
      cases b
      case vobj fb =>
        simp only [wfV, Bool.and_eq_true] at hwa hwb
        simp only [JsVal.vobj.sizeOf_spec] at hsz
        rw [jsEquals, jsEquals]
        exact hfields fa fb (by omega) hwa.1 hwb.1 hwa.2 hwb.2
      all_goals simp [jsEquals]
    | vtagged ca fa =>
      cases b
      case vtagged cb fb =>
        simp only [wfV, Bool.and_eq_true] at hwa hwb
        simp only [JsVal.vtagged.sizeOf_spec] at hsz
        rw [jsEquals, jsEquals]
        rw [beqSymm ca cb, hfields fa fb (by omega) hwa.1 hwb.1 hwa.2 hwb.2]
      all_goals simp [jsEquals]

/--
**C8** (confirmed). The default structural `equals` is reflexive on every
well-formed value (including `NaN`, via the both-NaN fallback) and symmetric:
`equals(a, b)` and `equals(b, a)` coincide for all well-formed values.
-/
theorem c8_default_equals_reflexive_symmetric (a b : JsVal)
    (ha : wfV a = true) (hb : wfV b = true) :
    jsEquals a a = true ∧ jsEquals a b = jsEquals b a :=
  ⟨jsEquals_refl_bounded (sizeOf a) a le_rfl ha,
   jsEquals_symm_bounded (sizeOf a + sizeOf b) a b le_rfl ha hb⟩

/-- Witness for C8: reflexivity at `NaN` and symmetry between `NaN` and an
object. -/
theorem c8_witness :
    wfV JsVal.vnan = true ∧ wfV wobjA = true ∧
      jsEquals JsVal.vnan JsVal.vnan = true ∧
      jsEquals JsVal.vnan wobjA = jsEquals wobjA JsVal.vnan :=
  ⟨by decide, by decide,
   (c8_default_equals_reflexive_symmetric JsVal.vnan wobjA (by decide) (by decide)).1,
   (c8_default_equals_reflexive_symmetric JsVal.vnan wobjA (by decide) (by decide)).2⟩

/-! ## Heap lemmas and the stored-key stability of the replace branch (C10) -/

theorem Heap.len_write {K V : Type} (hp : Heap K V) (a : Nat) (nd : Node K V) :
    (hp.write a nd).len = hp.len := by
  simp [Heap.len, Heap.write]

theorem Heap.read_lt_len {K V : Type} (hp : Heap K V) (a : Nat) (nd : Node K V)
    (h : hp.read a = some nd) : a < hp.len := by
  simp only [Heap.read] at h
  exact (List.getElem?_eq_some_iff.mp h).1

theorem Heap.read_write_self {K V : Type} (hp : Heap K V) (a : Nat) (nd : Node K V)
    (h : a < hp.len) : (hp.write a nd).read a = some nd := by
  simp only [Heap.read, Heap.write]
  exact List.getElem?_set_self h

theorem Heap.read_write_ne {K V : Type} (hp : Heap K V) (a b : Nat) (nd : Node K V)
    (h : b ≠ a) : (hp.write a nd).read b = hp.read b := by
  simp only [Heap.read, Heap.write]
  exact List.getElem?_set_ne (Ne.symm h)

theorem Heap.read_alloc_lt {K V : Type} (hp : Heap K V) (nd : Node K V) (b : Nat)
    (h : b < hp.len) : (hp.alloc nd).1.read b = hp.read b := by
  simp only [Heap.read, Heap.alloc]
  exact List.getElem?_append_left h

theorem Heap.len_alloc {K V : Type} (hp : Heap K V) (nd : Node K V) :
    (hp.alloc nd).1.len = hp.len + 1 := by
  simp [Heap.len, Heap.alloc]

/-- A successful bucket scan returns the node actually stored at the address. -/
theorem findInBucket_read {K V : Type} (hp : Heap K V) (eqFn : K → K → Bool) (key : K) :
    ∀ (bucket : List Nat) (a : Nat) (nd : Node K V),
      findInBucket hp eqFn key bucket = some (a, nd) → hp.read a = some nd
  | [], a, nd => by intro h; simp [findInBucket] at h
  | b :: rest, a, nd => by
    intro h
    rw [findInBucket] at h
    cases hr : hp.read b with
    | none =>
      rw [hr] at h
      dsimp only at h
      exact findInBucket_read hp eqFn key rest a nd h
    | some m =>
      rw [hr] at h
      dsimp only at h
      by_cases hk : eqFn key m.key
      · rw [if_pos hk] at h
        cases h
        exact hr
      · rw [if_neg hk] at h
        exact findInBucket_read hp eqFn key rest a nd h

/-- A successful bucket scan returns an address from the bucket. -/
theorem findInBucket_mem {K V : Type} (hp : Heap K V) (eqFn : K → K → Bool) (key : K) :
    ∀ (bucket : List Nat) (a : Nat) (nd : Node K V),
      findInBucket hp eqFn key bucket = some (a, nd) → a ∈ bucket
  | [], a, nd => by intro h; simp [findInBucket] at h
  | b :: rest, a, nd => by
    intro h
    rw [findInBucket] at h
    cases hr : hp.read b with
    | none =>
      rw [hr] at h
      dsimp only at h
      exact List.mem_cons_of_mem b (findInBucket_mem hp eqFn key rest a nd h)
    | some m =>
      rw [hr] at h
      dsimp only at h
      by_cases hk : eqFn key m.key
      · rw [if_pos hk] at h
        cases h
        exact List.mem_cons_self b rest
      · rw [if_neg hk] at h
        exact List.mem_cons_of_mem b (findInBucket_mem hp eqFn key rest a nd h)

/-- Writing only a node's `value` transforms a bucket scan pointwise. -/
theorem findInBucket_write_value {K V : Type} (hp : Heap K V) (a : Nat) (nd : Node K V)
    (v : V) (ha : hp.read a = some nd) (eqFn : K → K → Bool) (key : K) :
    ∀ bucket : List Nat,
      findInBucket (hp.write a { nd with value := v }) eqFn key bucket
        = (findInBucket hp eqFn key bucket).map
            (fun p => (p.1, if p.1 = a then { p.2 with value := v } else p.2))
  | [] => by simp [findInBucket]
  | b :: rest => by
    rw [findInBucket, findInBucket]
    by_cases hb : b = a
    · subst hb
      rw [Heap.read_write_self hp b _ (Heap.read_lt_len hp b nd ha), ha]
      dsimp only
      by_cases hk : eqFn key nd.key
      · simp [hk]
      · rw [if_neg hk, if_neg hk]
        exact findInBucket_write_value hp b nd v ha eqFn key rest
    · rw [Heap.read_write_ne hp a b _ hb]
      cases hr : hp.read b with
      | none =>
        dsimp only
        exact findInBucket_write_value hp a nd v ha eqFn key rest
      | some m =>
        dsimp only
        by_cases hk : eqFn key m.key
        · simp [hk, hb]
        · rw [if_neg hk, if_neg hk]
          exact findInBucket_write_value hp a nd v ha eqFn key rest

/-- Writing only a node's `value` transforms `getNode` pointwise. -/
theorem getNodeH_write_value {K V : Type} (hp : Heap K V) (m : ObjMap K V) (a : Nat)
    (nd : Node K V) (v : V) (ha : hp.read a = some nd) (key : K) :
    getNodeH (hp.write a { nd with value := v }) m key
      = (getNodeH hp m key).map
          (fun p => (p.1, if p.1 = a then { p.2 with value := v } else p.2)) := by
  rw [getNodeH, getNodeH]
  exact findInBucket_write_value hp a nd v ha m.eqFn key _

/-- Writing only a node's `value` leaves the chain walk intact except for the
rewritten value. -/
theorem chainAux_write_value {K V : Type} (hp : Heap K V) (m : ObjMap K V) (a : Nat)
    (nd : Node K V) (v : V) (ha : hp.read a = some nd) :
    ∀ (fuel : Nat) (cur : Option K),
      chainAux (hp.write a { nd with value := v }) m fuel cur
        = (chainAux hp m fuel cur).map
            (List.map (fun p => (p.1, if p.1 = a then { p.2 with value := v } else p.2)))
  | fuel, none => by cases fuel <;> rfl
  | 0, some k => by rfl
  | fuel + 1, some k => by
    rw [chainAux, chainAux, getNodeH_write_value hp m a nd v ha k]
    cases hg : getNodeH hp m k with
    | none => rfl
    | some p =>
      obtain ⟨b, m0⟩ := p
      have hnext : (if b = a then { m0 with value := v } else m0).next = m0.next := by
        by_cases hb : b = a <;> simp [hb]
      simp only [Option.map]
      rw [hnext, chainAux_write_value hp m a nd v ha fuel m0.next]
      cases chainAux hp m fuel m0.next <;> rfl

/-- Writing only a node's `value` preserves `keys()`. -/
theorem keysE_write_value {K V : Type} (hp : Heap K V) (m : ObjMap K V) (a : Nat)
    (nd : Node K V) (v : V) (ha : hp.read a = some nd) :
    keysE (hp.write a { nd with value := v }) m = keysE hp m := by
  rw [keysE, keysE, chainE, chainE, Heap.len_write,
    chainAux_write_value hp m a nd v ha (hp.len + 1) m.first]
  cases chainAux hp m (hp.len + 1) m.first with
  | error e => rfl
  | ok l =>
    simp only [Except.map, List.map_map]
    congr 1
    apply List.map_congr_left
    intro p _
    by_cases hb : p.1 = a <;> simp [hb]

/--
**C10** (confirmed). Stored-key stability: when `set(k2, v2)` finds an
existing entry (stored under the first-inserted key `nd.key = k1` with
`equals(k2, k1)`), only the entry's value is replaced in place — the heap
write is exactly `{nd with value := v2}` — so the stored key object stays
`k1`, `keys()` is unchanged, and `get(k2)` returns `v2`.
-/
theorem c10_set_on_existing_key_keeps_stored_key {K V : Type}
    (hp : Heap K V) (m : ObjMap K V) (k2 : K) (v2 : V) (a : Nat) (nd : Node K V)
    (h : getNodeH hp m k2 = some (a, nd)) :
    setE hp m k2 v2 = .ok (hp.write a { nd with value := v2 }, m) ∧
    keysE (hp.write a { nd with value := v2 }) m = keysE hp m ∧
    getNodeH (hp.write a { nd with value := v2 }) m k2 = some (a, { nd with value := v2 }) ∧
    getVal (hp.write a { nd with value := v2 }) m k2 = some v2 := by
  have hread : hp.read a = some nd := findInBucket_read hp m.eqFn k2 _ a nd h
  have hfind : findInBucket hp m.eqFn k2 (m.buckets.getD (bucketIdx m k2 m.capacity) [])
      = some (a, nd) := h
  refine ⟨?_, keysE_write_value hp m a nd v2 hread, ?_, ?_⟩
  · simp only [setE]
    rw [hfind]
  · rw [getNodeH_write_value hp m a nd v2 hread k2, h]
    simp
  · rw [getVal, getNodeH_write_value hp m a nd v2 hread k2, h]
    simp

/-- Witness for C10: a table holding the key-instance `(1,10)` (compared by
first component) with value 7; `set((1,20), 9)` keeps the stored key
`(1,10)`, preserves `keys()`, and makes `get((1,20))` return 9. -/
theorem c10_witness :
    getNodeH c10hp c10m (1, 20) = some (0, ⟨(1, 10), 7, none, none⟩) ∧
      (setE c10hp c10m (1, 20) 9 = .ok (c10hp.write 0 ⟨(1, 10), 9, none, none⟩, c10m) ∧
       keysE (c10hp.write 0 ⟨(1, 10), 9, none, none⟩) c10m = keysE c10hp c10m ∧
       getNodeH (c10hp.write 0 ⟨(1, 10), 9, none, none⟩) c10m (1, 20)
         = some (0, ⟨(1, 10), 9, none, none⟩) ∧
       getVal (c10hp.write 0 ⟨(1, 10), 9, none, none⟩) c10m (1, 20) = some 9) :=
  ⟨by decide,
   c10_set_on_existing_key_keeps_stored_key c10hp c10m (1, 20) 9 0
     ⟨(1, 10), 7, none, none⟩ (by decide)⟩

/-! ## Frame lemmas: clone-then-mutate never touches the original (C7) -/

theorem findInBucket_congr {K V : Type} (hp hp' : Heap K V) (eqFn : K → K → Bool) (key : K) :
    ∀ bucket : List Nat, (∀ b ∈ bucket, hp'.read b = hp.read b) →
      findInBucket hp' eqFn key bucket = findInBucket hp eqFn key bucket
  | [] => by intro _; rfl
  | b :: rest => by
    intro hagree
    rw [findInBucket, findInBucket, hagree b (List.mem_cons_self b rest)]
    cases hr : hp.read b with
    | none =>
      dsimp only
      exact findInBucket_congr hp hp' eqFn key rest
        fun x hx => hagree x (List.mem_cons_of_mem b hx)
    | some nd =>
      dsimp only
      by_cases hk : eqFn key nd.key
      · rw [if_pos hk, if_pos hk]
      · rw [if_neg hk, if_neg hk]
        exact findInBucket_congr hp hp' eqFn key rest
          fun x hx => hagree x (List.mem_cons_of_mem b hx)

theorem mem_getD_flatten (L : List (List Nat)) (i : Nat) (b : Nat)
    (h : b ∈ L.getD i []) : b ∈ L.flatten := by
  by_cases hi : i < L.length
  · rw [List.getD_eq_getElem?_getD, List.getElem?_eq_getElem hi] at h
    exact List.mem_flatten.mpr ⟨L[i], List.getElem_mem hi, h⟩
  · rw [List.getD_eq_getElem?_getD, List.getElem?_eq_none (by omega)] at h
    simp at h

theorem mem_bucket_addrsOf {K V : Type} (m : ObjMap K V) (i : Nat) (b : Nat)
    (h : b ∈ m.buckets.getD i []) : b ∈ addrsOf m :=
  mem_getD_flatten m.buckets i b h

theorem getNodeH_congr {K V : Type} (hp hp' : Heap K V) (m : ObjMap K V)
    (hagree : ∀ b ∈ addrsOf m, hp'.read b = hp.read b) (key : K) :
    getNodeH hp' m key = getNodeH hp m key := by
  rw [getNodeH, getNodeH]
  exact findInBucket_congr hp hp' m.eqFn key _
    fun b hb => hagree b (mem_bucket_addrsOf m _ b hb)

theorem getVal_congr {K V : Type} (hp hp' : Heap K V) (m : ObjMap K V)
    (hagree : ∀ b ∈ addrsOf m, hp'.read b = hp.read b) (key : K) :
    getVal hp' m key = getVal hp m key := by
  rw [getVal, getVal, getNodeH_congr hp hp' m hagree key]

theorem anyCongr {α : Type} (l : List α) (f g : α → Bool)
    (h : ∀ a ∈ l, f a = g a) : l.any f = l.any g := by
  induction l with
  | nil => rfl
  | cons a tl ih =>
    simp only [List.any_cons]
    rw [h a (List.mem_cons_self a tl), ih fun x hx => h x (List.mem_cons_of_mem a hx)]

theorem hasKey_congr {K V : Type} (hp hp' : Heap K V) (m : ObjMap K V)
    (hagree : ∀ b ∈ addrsOf m, hp'.read b = hp.read b) (key : K) :
    hasKey hp' m key = hasKey hp m key := by
  rw [hasKey, hasKey]
  apply anyCongr
  intro b hb
  rw [hagree b (mem_bucket_addrsOf m _ b hb)]

/-- The observable state at a query key only depends on heap cells referenced
from the table's buckets. -/
theorem observablesAt_congr {K V : Type} (hp hp' : Heap K V) (m : ObjMap K V)
    (hagree : ∀ b ∈ addrsOf m, hp'.read b = hp.read b) (q : K) :
    observablesAt hp' m q = observablesAt hp m q := by
  rw [observablesAt, observablesAt, getVal_congr hp hp' m hagree q,
    hasKey_congr hp hp' m hagree q]

theorem validB_lt {K V : Type} (hp : Heap K V) (m : ObjMap K V)
    (hv : validB hp m = true) : ∀ b ∈ addrsOf m, b < hp.len := by
  rw [validB, List.all_eq_true] at hv
  intro b hb
  simpa using hv b hb

theorem chainAux_addrs {K V : Type} (hp : Heap K V) (m : ObjMap K V) :
    ∀ (fuel : Nat) (cur : Option K) (l : List (Nat × Node K V)),
      chainAux hp m fuel cur = .ok l → ∀ p ∈ l, p.1 ∈ addrsOf m
  | fuel, none, l => by
    intro h p hp'
    cases fuel <;> (cases h; simp at hp')
  | 0, some k, l => by intro h; cases h
  | fuel + 1, some k, l => by
    intro h p hmem
    rw [chainAux] at h
    cases hg : getNodeH hp m k with
    | none => rw [hg] at h; cases h
    | some q =>
      obtain ⟨a, nd⟩ := q
      rw [hg] at h
      dsimp only at h
      cases hc : chainAux hp m fuel nd.next with
      | error e =>
        rw [hc] at h
        simp [Except.map] at h
      | ok l' =>
        rw [hc] at h
        simp only [Except.map] at h
        cases h
        rcases List.mem_cons.mp hmem with hmem | hmem
        · subst hmem
          exact mem_bucket_addrsOf m _ a (findInBucket_mem hp m.eqFn k _ a nd hg)
        · exact chainAux_addrs hp m fuel nd.next l' hc p hmem

theorem flatten_set_mem (L : List (List Nat)) (i : Nat) (x : List Nat) (b : Nat)
    (h : b ∈ (L.set i x).flatten) : b ∈ L.flatten ∨ b ∈ x := by
  obtain ⟨t, ht, hbt⟩ := List.mem_flatten.mp h
  rcases List.mem_or_eq_of_mem_set ht with ht | ht
  · exact Or.inl (List.mem_flatten.mpr ⟨t, ht, hbt⟩)
  · subst ht; exact Or.inr hbt

theorem foldBuckets_mem {K V : Type} (hashFn : K → Nat) (cap : Nat) :
    ∀ (chain : List (Nat × Node K V)) (init : List (List Nat)) (b : Nat),
      b ∈ (chain.foldl
            (fun bks p =>
              bks.set (hashFn p.2.key % cap) (bks.getD (hashFn p.2.key % cap) [] ++ [p.1]))
            init).flatten →
        b ∈ init.flatten ∨ b ∈ chain.map Prod.fst
  | [], init, b => by intro h; exact Or.inl h
  | p :: rest, init, b => by
    intro h
    rw [List.foldl_cons] at h
    rcases foldBuckets_mem hashFn cap rest _ b h with h' | h'
    · rcases flatten_set_mem init _ _ b h' with h'' | h''
      · exact Or.inl h''
      · rcases List.mem_append.mp h'' with h3 | h3
        · exact Or.inl (mem_getD_flatten init _ b h3)
        · simp at h3
          subst h3
          exact Or.inr (by simp)
    · right
      simp only [List.map_cons, List.mem_cons]
      exact Or.inr h'

/-- `resize` keeps the heap intact and only re-buckets existing addresses. -/
theorem resizeE_ok {K V : Type} (hp : Heap K V) (m : ObjMap K V) (cap : Nat)
    (hp' : Heap K V) (m' : ObjMap K V) (hs : resizeE hp m cap = .ok (hp', m')) :
    hp' = hp ∧ ∀ b ∈ addrsOf m', b ∈ addrsOf m := by
  rw [resizeE] at hs
  cases hc : chainE hp m with
  | error e => rw [hc] at hs; cases hs
  | ok chain =>
    rw [hc] at hs
    simp only [Except.map] at hs
    cases hs
    refine ⟨rfl, fun b hb => ?_⟩
    rcases foldBuckets_mem m.hashFn cap chain (List.replicate cap []) b hb with h | h
    · exfalso
      obtain ⟨t, ht, hbt⟩ := List.mem_flatten.mp h
      rw [List.eq_of_mem_replicate ht] at hbt
      simp at hbt
    · obtain ⟨p, hpmem, hpb⟩ := List.mem_map.mp h
      subst hpb
      exact chainAux_addrs hp m _ m.first chain hc p hpmem

/-- Inversion of a successful `Except.bind`. -/
theorem exceptBind_ok {E A B : Type} (x : Except E A) (f : A → Except E B) (b : B)
    (h : x.bind f = .ok b) : ∃ a, x = .ok a ∧ f a = .ok b := by
  cases x with
  | error e => simp [Except.bind] at h
  | ok a =>
    simp only [Except.bind] at h
    exact ⟨a, rfl, h⟩

/-- Frame property of `set`: the heap only grows, cells that are neither
fresh nor referenced from the receiver's buckets are untouched, and the
result references only old-or-fresh addresses. -/
theorem setE_frame {K V : Type} (hp : Heap K V) (m : ObjMap K V) (key : K) (v : V)
    (hp' : Heap K V) (m' : ObjMap K V) (hs : setE hp m key v = .ok (hp', m')) :
    hp.len ≤ hp'.len ∧
    (∀ b, b < hp.len → b ∉ addrsOf m → hp'.read b = hp.read b) ∧
    (∀ b ∈ addrsOf m', b ∈ addrsOf m ∨ hp.len ≤ b) := by
  simp only [setE] at hs
  cases hfind : findInBucket hp m.eqFn key
      (m.buckets.getD (bucketIdx m key m.capacity) []) with
  | some p0 =>
    obtain ⟨a, nd⟩ := p0
    rw [hfind] at hs
    dsimp only at hs
    cases hs
    have ha : a ∈ addrsOf m :=
      mem_bucket_addrsOf m _ a (findInBucket_mem hp m.eqFn key _ a nd hfind)
    refine ⟨by rw [Heap.len_write], ?_, fun b hb => Or.inl hb⟩
    intro b hb hnm
    exact Heap.read_write_ne hp a b _ (fun hba => hnm (hba ▸ ha))
  | none =>
    rw [hfind] at hs
    dsimp only at hs
    have hm1addrs : ∀ b ∈ addrsOf
        ({ m with
          buckets := m.buckets.set (bucketIdx m key m.capacity)
            (m.buckets.getD (bucketIdx m key m.capacity) []
              ++ [(hp.alloc { key := key, value := v, prev := m.last, next := none }).2]),
          size := m.size + 1 } : ObjMap K V),
        b ∈ addrsOf m ∨ hp.len ≤ b := by
      intro b hb
      rcases flatten_set_mem m.buckets _ _ b hb with h | h
      · exact Or.inl h
      · rcases List.mem_append.mp h with h | h
        · exact Or.inl (mem_getD_flatten m.buckets _ b h)
        · simp only [List.mem_singleton] at h
          subst h
          exact Or.inr (le_refl _)
    have hlenA : (hp.alloc { key := key, value := v, prev := m.last, next := none }).1.len
        = hp.len + 1 := Heap.len_alloc hp _
    have hreadA : ∀ b, b < hp.len →
        (hp.alloc { key := key, value := v, prev := m.last, next := none }).1.read b
          = hp.read b := fun b hb => Heap.read_alloc_lt hp _ b hb
    split at hs
    · -- the insertion pushed past the load factor: resize first
      obtain ⟨pr, hres, hs2⟩ := exceptBind_ok _ _ _ hs
      obtain ⟨hp2, m2⟩ := pr
      obtain ⟨hpeq, haddr2⟩ := resizeE_ok _ _ _ _ _ hres
      subst hpeq
      have haddrs2 : ∀ b ∈ addrsOf m2, b ∈ addrsOf m ∨ hp.len ≤ b :=
        fun b hb => hm1addrs b (haddr2 b hb)
      dsimp only at hs2
      split at hs2
      · cases hs2
        exact ⟨by omega, fun b hb _ => hreadA b hb, haddrs2⟩
      · split at hs2
        · cases hs2
        · rename_i la lnd hget
          cases hs2
          have hla : la ∈ addrsOf m2 :=
            mem_bucket_addrsOf m2 _ la (findInBucket_mem _ m2.eqFn _ _ la lnd hget)
          refine ⟨by rw [Heap.len_write]; omega, ?_, haddrs2⟩
          intro b hb hnm
          rw [Heap.read_write_ne _ la b _ ?_, hreadA b hb]
          rcases haddrs2 la hla with h | h
          · exact fun hba => hnm (hba ▸ h)
          · omega
    · -- no resize
      obtain ⟨pr, hok, hs2⟩ := exceptBind_ok _ _ _ hs
      obtain ⟨hp2, m2⟩ := pr
      rw [Except.ok.injEq, Prod.mk.injEq] at hok
      obtain ⟨h1, h2⟩ := hok
      subst h1
      subst h2
      dsimp only at hs2
      split at hs2
      · cases hs2
        exact ⟨by omega, fun b hb _ => hreadA b hb, hm1addrs⟩
      · split at hs2
        · cases hs2
        · rename_i la lnd hget
          cases hs2
          have hla := mem_bucket_addrsOf _ _ la (findInBucket_mem _ _ _ _ la lnd hget)
          refine ⟨by rw [Heap.len_write]; omega, ?_, hm1addrs⟩
          intro b hb hnm
          rw [Heap.read_write_ne _ la b _ ?_, hreadA b hb]
          rcases hm1addrs la hla with h | h
          · exact fun hba => hnm (hba ▸ h)
          · omega

/-- Inversion of a successful `Except.map`. -/
theorem exceptMap_ok {E A B : Type} (x : Except E A) (f : A → B) (b : B)
    (h : x.map f = .ok b) : ∃ a, x = .ok a ∧ f a = b := by
  cases x with
  | error e => simp [Except.map] at h
  | ok a =>
    simp only [Except.map, Except.ok.injEq] at h
    exact ⟨a, rfl, h⟩

/-- Frame property of `delete`: the heap length is unchanged and cells not
referenced from the receiver's buckets are untouched. -/
theorem deleteE_frame {K V : Type} (hp : Heap K V) (m : ObjMap K V) (key : K)
    (hp' : Heap K V) (m' : ObjMap K V) (fl : Bool)
    (hs : deleteE hp m key = .ok (hp', m', fl)) :
    hp'.len = hp.len ∧ (∀ b, b ∉ addrsOf m → hp'.read b = hp.read b) := by
  simp only [deleteE] at hs
  cases hfi : findIdxInBucket hp m.eqFn key
      (m.buckets.getD (bucketIdx m key m.capacity) []) 0 with
  | none =>
    rw [hfi] at hs
    dsimp only at hs
    cases hs
    exact ⟨rfl, fun b _ => rfl⟩
  | some t =>
    obtain ⟨i, a0, nd⟩ := t
    rw [hfi] at hs
    dsimp only at hs
    have hm1sub : ∀ b ∈ (m.buckets.set (bucketIdx m key m.capacity)
        ((m.buckets.getD (bucketIdx m key m.capacity) []).eraseIdx i)).flatten,
        b ∈ addrsOf m := by
      intro b hb
      rcases flatten_set_mem m.buckets _ _ b hb with h | h
      · exact h
      · exact mem_getD_flatten m.buckets _ b (List.Sublist.mem h (List.eraseIdx_sublist _ i))
    obtain ⟨hp1, hstep1, hs2⟩ := exceptBind_ok _ _ _ hs
    have hfact1 : hp1.len = hp.len ∧ ∀ b, b ∉ addrsOf m → hp1.read b = hp.read b := by
      split at hstep1
      · cases hstep1
        exact ⟨rfl, fun b _ => rfl⟩
      · split at hstep1
        · cases hstep1
        · rename_i pa pnd hget
          cases hstep1
          have hpa := hm1sub pa (mem_getD_flatten _ _ pa (findInBucket_mem _ _ _ _ pa pnd hget))
          exact ⟨Heap.len_write hp pa _, fun b hb =>
            Heap.read_write_ne hp pa b _ (fun hba => hb (hba ▸ hpa))⟩
    obtain ⟨hp2, hstep2, hres⟩ := exceptMap_ok _ _ _ hs2
    have hfact2 : hp2.len = hp.len ∧ ∀ b, b ∉ addrsOf m → hp2.read b = hp.read b := by
      split at hstep2
      · cases hstep2
        exact hfact1
      · split at hstep2
        · cases hstep2
        · rename_i na nnd hget
          cases hstep2
          have hna := hm1sub na (mem_getD_flatten _ _ na (findInBucket_mem _ _ _ _ na nnd hget))
          refine ⟨by rw [Heap.len_write]; exact hfact1.1, fun b hb => ?_⟩
          rw [Heap.read_write_ne hp1 na b _ (fun hba => hb (hba ▸ hna)), hfact1.2 b hb]
    rw [Prod.mk.injEq, Prod.mk.injEq] at hres
    obtain ⟨h1, h2, h3⟩ := hres
    subst h1
    exact hfact2

/-- Frame property of the constructor's replay loop: fresh tables built from
address-`L`-or-later state only write at or after `L`. -/
theorem replayE_frame {K V : Type} :
    ∀ (entries : List (K × V)) (hp : Heap K V) (c : ObjMap K V)
      (hp' : Heap K V) (c' : ObjMap K V),
      replayE hp c entries = .ok (hp', c') →
      ∀ L : Nat, L ≤ hp.len → (∀ b ∈ addrsOf c, L ≤ b) →
        hp.len ≤ hp'.len ∧ (∀ b, b < L → hp'.read b = hp.read b) ∧
          (∀ b ∈ addrsOf c', L ≤ b)
  | [], hp, c, hp', c' => by
    intro hs L hL hc
    rw [replayE] at hs
    cases hs
    exact ⟨le_refl _, fun _ _ => rfl, hc⟩
  | (k, v) :: rest, hp, c, hp', c' => by
    intro hs L hL hc
    rw [replayE] at hs
    obtain ⟨pr, hset, hs2⟩ := exceptBind_ok _ _ _ hs
    obtain ⟨hp1, c1⟩ := pr
    obtain ⟨hlen1, hread1, haddr1⟩ := setE_frame hp c k v hp1 c1 hset
    dsimp only at hs2
    have hc1 : ∀ b ∈ addrsOf c1, L ≤ b := by
      intro b hb
      rcases haddr1 b hb with h | h
      · exact hc b h
      · omega
    obtain ⟨hlen2, hread2, haddr2⟩ :=
      replayE_frame rest hp1 c1 hp' c' hs2 L (by omega) hc1
    refine ⟨by omega, fun b hb => ?_, haddr2⟩
    rw [hread2 b hb, hread1 b (by omega) (fun hmem => by have := hc b hmem; omega)]

theorem flatten_replicate_nil (n : Nat) : (List.replicate n ([] : List Nat)).flatten = [] := by
  induction n with
  | zero => rfl
  | succ n ih => simp [List.replicate_succ, ih]

/-- Frame property of copy construction: the clone's nodes are all freshly
allocated (at or past the old heap end) and old cells are untouched. -/
theorem copyMap_frame {K V : Type} (hp : Heap K V) (src : ObjMap K V)
    (opts : CtorOptions K) (hp' : Heap K V) (c : ObjMap K V)
    (hs : copyMap hp src opts = .ok (hp', c)) :
    hp.len ≤ hp'.len ∧ (∀ b, b < hp.len → hp'.read b = hp.read b) ∧
      (∀ b ∈ addrsOf c, hp.len ≤ b) := by
  simp only [copyMap] at hs
  obtain ⟨ents, hent, hs2⟩ := exceptBind_ok _ _ _ hs
  refine replayE_frame ents hp _ hp' c hs2 hp.len (le_refl _) ?_
  intro b hb
  exfalso
  have hnil : (List.replicate src.capacity ([] : List Nat)).flatten = [] :=
    flatten_replicate_nil src.capacity
  have hb' : b ∈ (List.replicate src.capacity ([] : List Nat)).flatten := hb
  rw [hnil] at hb'
  simp at hb'

/-- `ImmutableMap.set` leaves every pre-existing heap cell unchanged. -/
theorem immSetE_reads {K V : Type} (hp : Heap K V) (m : ObjMap K V) (k : K) (v : V)
    (r : Heap K V × ObjMap K V) (h : immSetE hp m k v = .ok r) :
    ∀ b, b < hp.len → r.1.read b = hp.read b := by
  obtain ⟨hp2, c2⟩ := r
  intro b hb
  simp only [immSetE] at h
  obtain ⟨p1, hcopy, h2⟩ := exceptBind_ok _ _ _ h
  obtain ⟨hp1, c1⟩ := p1
  obtain ⟨hl1, hr1, ha1⟩ := copyMap_frame hp m noOpts hp1 c1 hcopy
  obtain ⟨p2, hset, h3⟩ := exceptBind_ok _ _ _ h2
  obtain ⟨hp1s, c1s⟩ := p2
  obtain ⟨hl2, hr2, ha2⟩ := setE_frame hp1 c1 k v hp1s c1s hset
  obtain ⟨hl3, hr3, ha3⟩ := copyMap_frame hp1s c1s noOpts hp2 c2 h3
  have hnot : b ∉ addrsOf c1 := fun hmem => absurd (ha1 b hmem) (by omega)
  show hp2.read b = hp.read b
  rw [hr3 b (by omega), hr2 b (by omega) hnot, hr1 b hb]

/-- `ImmutableMap.delete` leaves every pre-existing heap cell unchanged. -/
theorem immDeleteE_reads {K V : Type} (hp : Heap K V) (m : ObjMap K V) (k : K)
    (r : Heap K V × ObjMap K V) (h : immDeleteE hp m k = .ok r) :
    ∀ b, b < hp.len → r.1.read b = hp.read b := by
  obtain ⟨hp2, c2⟩ := r
  intro b hb
  simp only [immDeleteE] at h
  obtain ⟨p1, hcopy, h2⟩ := exceptBind_ok _ _ _ h
  obtain ⟨hp1, c1⟩ := p1
  obtain ⟨hl1, hr1, ha1⟩ := copyMap_frame hp m noOpts hp1 c1 hcopy
  obtain ⟨p2, hdel, h3⟩ := exceptBind_ok _ _ _ h2
  obtain ⟨hp1s, c1s, fl⟩ := p2
  obtain ⟨hl2, hr2⟩ := deleteE_frame hp1 c1 k hp1s c1s fl hdel
  obtain ⟨hl3, hr3, ha3⟩ := copyMap_frame hp1s c1s noOpts hp2 c2 h3
  have hnot : b ∉ addrsOf c1 := fun hmem => absurd (ha1 b hmem) (by omega)
  show hp2.read b = hp.read b
  rw [hr3 b (by omega), hr2 b hnot, hr1 b hb]

/-- `ImmutableMap.update` leaves every pre-existing heap cell unchanged. -/
theorem immUpdateE_reads {K V : Type} (hp : Heap K V) (m : ObjMap K V) (k : K)
    (f : Option V → K → V) (r : Heap K V × ObjMap K V)
    (h : immUpdateE hp m k f = .ok r) :
    ∀ b, b < hp.len → r.1.read b = hp.read b := by
  obtain ⟨hp2, c2⟩ := r
  intro b hb
  simp only [immUpdateE] at h
  obtain ⟨p1, hcopy, h2⟩ := exceptBind_ok _ _ _ h
  obtain ⟨hp1, c1⟩ := p1
  obtain ⟨hl1, hr1, ha1⟩ := copyMap_frame hp m noOpts hp1 c1 hcopy
  obtain ⟨p2, hset, h3⟩ := exceptBind_ok _ _ _ h2
  obtain ⟨hp1s, c1s⟩ := p2
  obtain ⟨hl2, hr2, ha2⟩ := setE_frame hp1 c1 k _ hp1s c1s hset
  obtain ⟨hl3, hr3, ha3⟩ := copyMap_frame hp1s c1s noOpts hp2 c2 h3
  have hnot : b ∉ addrsOf c1 := fun hmem => absurd (ha1 b hmem) (by omega)
  show hp2.read b = hp.read b
  rw [hr3 b (by omega), hr2 b (by omega) hnot, hr1 b hb]

/-- `ImmutableSet.add` leaves every pre-existing heap cell unchanged. -/
theorem immAddE_reads {T : Type} (hps : Heap T T) (s : ObjSet T) (v : T)
    (r : Heap T T × ObjSet T) (h : immAddE hps s v = .ok r) :
    ∀ b, b < hps.len → r.1.read b = hps.read b := by
  obtain ⟨hp2, s2⟩ := r
  intro b hb
  simp only [immAddE] at h
  obtain ⟨p1, hcopy, h2⟩ := exceptBind_ok _ _ _ h
  obtain ⟨hp1, c1⟩ := p1
  obtain ⟨hl1, hr1, ha1⟩ := copyMap_frame hps s._map noOpts hp1 c1 hcopy
  obtain ⟨p2, hset, h3⟩ := exceptBind_ok _ _ _ h2
  obtain ⟨hp1s, c1s⟩ := p2
  obtain ⟨hl2, hr2, ha2⟩ := setE_frame hp1 c1 v v hp1s c1s hset
  obtain ⟨p3, hcp2, heq⟩ := exceptMap_ok _ _ _ h3
  obtain ⟨hp3, c3⟩ := p3
  obtain ⟨hl3, hr3, ha3⟩ := copyMap_frame hp1s c1s noOpts hp3 c3 hcp2
  rw [Prod.mk.injEq] at heq
  obtain ⟨he1, he2⟩ := heq
  have hnot : b ∉ addrsOf c1 := fun hmem => absurd (ha1 b hmem) (by omega)
  show hp2.read b = hps.read b
  rw [← he1, hr3 b (by omega), hr2 b (by omega) hnot, hr1 b hb]

/-- `relinkAux` never changes the heap length. -/
theorem relinkAux_len {K V : Type} :
    ∀ (l : List (Nat × Node K V)) (hp : Heap K V) (pk : Option K),
      (relinkAux hp pk l).len = hp.len
  | [], _, _ => rfl
  | (a, nd) :: rest, hp, pk => by
    simp only [relinkAux]
    rw [relinkAux_len rest _ _, Heap.len_write]

/-- `relinkAux` writes only at the listed addresses. -/
theorem relinkAux_read {K V : Type} :
    ∀ (l : List (Nat × Node K V)) (hp : Heap K V) (pk : Option K) (b : Nat),
      b ∉ l.map Prod.fst → (relinkAux hp pk l).read b = hp.read b
  | [], _, _, _ => fun _ => rfl
  | (a, nd) :: rest, hp, pk, b => by
    intro hb
    simp only [List.map_cons, List.mem_cons, not_or] at hb
    simp only [relinkAux]
    rw [relinkAux_read rest _ _ b hb.2, Heap.read_write_ne hp a b _ hb.1]

/-- Frame property of `sort`: the heap length is unchanged, cells not
referenced from the receiver's buckets are untouched (the relink writes hit
only chain addresses, which live in the buckets), and the buckets themselves
are unchanged. -/
theorem sortE_frame {K V : Type} (hp : Heap K V) (m : ObjMap K V)
    (cmp : Option (K → V → K → V → Int)) (hp' : Heap K V) (m' : ObjMap K V)
    (hs : sortE hp m cmp = .ok (hp', m')) :
    hp'.len = hp.len ∧ (∀ b, b ∉ addrsOf m → hp'.read b = hp.read b) ∧
      (∀ b ∈ addrsOf m', b ∈ addrsOf m) := by
  rw [sortE] at hs
  cases hchain : chainE hp m with
  | error e => rw [hchain] at hs; simp [Except.bind] at hs
  | ok chain =>
    rw [hchain] at hs
    simp only [Except.bind] at hs
    cases cmp with
    | none =>
      dsimp only at hs
      cases chain with
      | nil => cases hs
      | cons n0 tail =>
        dsimp only at hs
        cases hs
        have hmem : ∀ p ∈ n0 :: tail, p.1 ∈ addrsOf m := fun p hpmem =>
          chainAux_addrs hp m _ m.first (n0 :: tail) hchain p hpmem
        refine ⟨relinkAux_len _ hp none, fun b hb => ?_, fun b hb => hb⟩
        refine relinkAux_read _ hp none b ?_
        intro hbm
        obtain ⟨p, hpmem, hpb⟩ := List.mem_map.mp hbm
        exact hb (hpb ▸ hmem p hpmem)
    | some c =>
      dsimp only at hs
      generalize hms : chain.mergeSort
        (fun p q => c p.2.key p.2.value q.2.key q.2.value ≤ 0) = ns at hs
      cases ns with
      | nil => cases hs
      | cons n0 tail =>
        dsimp only at hs
        cases hs
        have hmem : ∀ p ∈ n0 :: tail, p.1 ∈ addrsOf m := by
          rw [← hms]
          intro p hpmem
          exact chainAux_addrs hp m _ m.first chain hchain p
            ((List.Perm.mem_iff (List.mergeSort_perm chain _)).mp hpmem)
        refine ⟨relinkAux_len _ hp none, fun b hb => ?_, fun b hb => hb⟩
        refine relinkAux_read _ hp none b ?_
        intro hbm
        obtain ⟨p, hpmem, hpb⟩ := List.mem_map.mp hbm
        exact hb (hpb ▸ hmem p hpmem)

/-- `ImmutableMap.sort` leaves every pre-existing heap cell unchanged. -/
theorem immSortE_reads {K V : Type} (hp : Heap K V) (m : ObjMap K V)
    (cmp : Option (K → V → K → V → Int)) (r : Heap K V × ObjMap K V)
    (h : immSortE hp m cmp = .ok r) :
    ∀ b, b < hp.len → r.1.read b = hp.read b := by
  obtain ⟨hp2, c2⟩ := r
  intro b hb
  simp only [immSortE] at h
  obtain ⟨p1, hcopy, h2⟩ := exceptBind_ok _ _ _ h
  obtain ⟨hp1, c1⟩ := p1
  obtain ⟨hl1, hr1, ha1⟩ := copyMap_frame hp m noOpts hp1 c1 hcopy
  obtain ⟨p2, hsort, h3⟩ := exceptBind_ok _ _ _ h2
  obtain ⟨hp1s, c1s⟩ := p2
  obtain ⟨hl2, hr2, ha2⟩ := sortE_frame hp1 c1 cmp hp1s c1s hsort
  obtain ⟨hl3, hr3, ha3⟩ := copyMap_frame hp1s c1s noOpts hp2 c2 h3
  have hnot : b ∉ addrsOf c1 := fun hmem => absurd (ha1 b hmem) (by omega)
  show hp2.read b = hp.read b
  rw [hr3 b (by omega), hr2 b hnot, hr1 b hb]

/-- `delete` only ever shrinks the bucket contents: every address the result
references was already referenced by the receiver. -/
theorem deleteE_addrs {K V : Type} (hp : Heap K V) (m : ObjMap K V) (key : K)
    (hp' : Heap K V) (m' : ObjMap K V) (fl : Bool)
    (hs : deleteE hp m key = .ok (hp', m', fl)) :
    ∀ b ∈ addrsOf m', b ∈ addrsOf m := by
  simp only [deleteE] at hs
  cases hfi : findIdxInBucket hp m.eqFn key
      (m.buckets.getD (bucketIdx m key m.capacity) []) 0 with
  | none =>
    rw [hfi] at hs
    dsimp only at hs
    cases hs
    exact fun b hb => hb
  | some t =>
    obtain ⟨i, a0, nd⟩ := t
    rw [hfi] at hs
    dsimp only at hs
    obtain ⟨hp1, hstep1, hs2⟩ := exceptBind_ok _ _ _ hs
    obtain ⟨hp2, hstep2, hres⟩ := exceptMap_ok _ _ _ hs2
    rw [Prod.mk.injEq, Prod.mk.injEq] at hres
    obtain ⟨h1, h2, h3⟩ := hres
    subst h2
    intro b hb
    have hb' : b ∈ (m.buckets.set (bucketIdx m key m.capacity)
        ((m.buckets.getD (bucketIdx m key m.capacity) []).eraseIdx i)).flatten := hb
    rcases flatten_set_mem m.buckets _ _ b hb' with h | h
    · exact h
    · exact mem_getD_flatten m.buckets _ b (List.Sublist.mem h (List.eraseIdx_sublist _ i))

/-- `ImmutableSet.delete` leaves every pre-existing heap cell unchanged. -/
theorem immSDeleteE_reads {T : Type} (hps : Heap T T) (s : ObjSet T) (v : T)
    (r : Heap T T × ObjSet T) (h : immSDeleteE hps s v = .ok r) :
    ∀ b, b < hps.len → r.1.read b = hps.read b := by
  obtain ⟨hp2, s2⟩ := r
  intro b hb
  simp only [immSDeleteE] at h
  obtain ⟨p1, hcopy, h2⟩ := exceptBind_ok _ _ _ h
  obtain ⟨hp1, c1⟩ := p1
  obtain ⟨hl1, hr1, ha1⟩ := copyMap_frame hps s._map noOpts hp1 c1 hcopy
  obtain ⟨p2, hdel, h3⟩ := exceptBind_ok _ _ _ h2
  obtain ⟨hp1s, c1s, fl⟩ := p2
  obtain ⟨hl2, hr2⟩ := deleteE_frame hp1 c1 v hp1s c1s fl hdel
  obtain ⟨p3, hcp2, heq⟩ := exceptMap_ok _ _ _ h3
  obtain ⟨hp3, c3⟩ := p3
  obtain ⟨hl3, hr3, ha3⟩ := copyMap_frame hp1s c1s noOpts hp3 c3 hcp2
  rw [Prod.mk.injEq] at heq
  obtain ⟨he1, he2⟩ := heq
  have hnot : b ∉ addrsOf c1 := fun hmem => absurd (ha1 b hmem) (by omega)
  show hp2.read b = hps.read b
  rw [← he1, hr3 b (by omega), hr2 b hnot, hr1 b hb]

/-- `ImmutableSet.clear` leaves every pre-existing heap cell unchanged. -/
theorem immSClearE_reads {T : Type} (hps : Heap T T) (s : ObjSet T)
    (r : Heap T T × ObjSet T) (h : immSClearE hps s = .ok r) :
    ∀ b, b < hps.len → r.1.read b = hps.read b := by
  obtain ⟨hp2, s2⟩ := r
  intro b hb
  simp only [immSClearE] at h
  obtain ⟨p1, hcopy, h2⟩ := exceptBind_ok _ _ _ h
  obtain ⟨hp1, c1⟩ := p1
  obtain ⟨hl1, hr1, ha1⟩ := copyMap_frame hps s._map noOpts hp1 c1 hcopy
  obtain ⟨p3, hcp2, heq⟩ := exceptMap_ok _ _ _ h2
  obtain ⟨hp3, c3⟩ := p3
  obtain ⟨hl3, hr3, ha3⟩ := copyMap_frame hp1 (clearM c1) noOpts hp3 c3 hcp2
  rw [Prod.mk.injEq] at heq
  obtain ⟨he1, he2⟩ := heq
  show hp2.read b = hps.read b
  rw [← he1, hr3 b (by omega), hr1 b hb]

/-- `ObjectMap.filter` builds its result entirely out of fresh nodes. -/
theorem filterMapE_reads {K V : Type} (hp : Heap K V) (m : ObjMap K V)
    (pred : V → K → Bool) (r : Heap K V × ObjMap K V)
    (h : filterMapE hp m pred = .ok r) :
    ∀ b, b < hp.len → r.1.read b = hp.read b := by
  obtain ⟨hp2, c2⟩ := r
  intro b hb
  simp only [filterMapE] at h
  obtain ⟨ents, hent, h2⟩ := exceptBind_ok _ _ _ h
  have hnil : ∀ b2 ∈ addrsOf (emptyCloneMap m : ObjMap K V), hp.len ≤ b2 := by
    intro b2 hb2
    exfalso
    have hb2' : b2 ∈ (List.replicate (jsOr (some m.capacity) 32)
        ([] : List Nat)).flatten := hb2
    rw [flatten_replicate_nil] at hb2'
    simp at hb2'
  obtain ⟨hlen, hread, haddr⟩ :=
    replayE_frame _ hp (emptyCloneMap m) hp2 c2 h2 hp.len (le_refl _) hnil
  exact hread b hb

/-- `ObjectSet.filter` leaves every pre-existing heap cell unchanged. -/
theorem setFilterE_reads {T : Type} (hps : Heap T T) (s : ObjSet T) (pred : T → Bool)
    (r : Heap T T × ObjSet T) (h : setFilterE hps s pred = .ok r) :
    ∀ b, b < hps.len → r.1.read b = hps.read b := by
  obtain ⟨hp2, s2⟩ := r
  intro b hb
  simp only [setFilterE] at h
  obtain ⟨p1, hfm, heq⟩ := exceptMap_ok _ _ _ h
  obtain ⟨hp1, c1⟩ := p1
  rw [Prod.mk.injEq] at heq
  obtain ⟨he1, he2⟩ := heq
  show hp2.read b = hps.read b
  rw [← he1]
  exact filterMapE_reads hps s._map _ (hp1, c1) hfm b hb

/-- `union` leaves every pre-existing heap cell unchanged: it clones the
receiver and adds the other operand's keys to the clone only. -/
theorem unionE_reads {T : Type} (hps : Heap T T) (s other : ObjSet T)
    (r : Heap T T × ObjSet T) (h : unionE hps s other = .ok r) :
    ∀ b, b < hps.len → r.1.read b = hps.read b := by
  obtain ⟨hp2, s2⟩ := r
  intro b hb
  simp only [unionE, cloneSetE] at h
  obtain ⟨p0, hmap0, h1⟩ := exceptBind_ok _ _ _ h
  obtain ⟨q0, hcopy, heq0⟩ := exceptMap_ok _ _ _ hmap0
  obtain ⟨hp1, c1⟩ := q0
  subst heq0
  obtain ⟨hl1, hr1, ha1⟩ := copyMap_frame hps s._map noOpts hp1 c1 hcopy
  obtain ⟨ks, hks, h2⟩ := exceptBind_ok _ _ _ h1
  obtain ⟨q2, hreplay, heq2⟩ := exceptMap_ok _ _ _ h2
  obtain ⟨hp3, c3⟩ := q2
  rw [Prod.mk.injEq] at heq2
  obtain ⟨he1, he2⟩ := heq2
  obtain ⟨hlen2, hread2, haddr2⟩ :=
    replayE_frame (ks.map fun k => (k, k)) hp1 c1 hp3 c3 hreplay hps.len hl1 ha1
  show hp2.read b = hps.read b
  rw [← he1, hread2 b hb, hr1 b hb]

/-- Frame property of the `symmetricDifference` toggle loop: starting from a
table whose addresses all lie at or past `L`, it only writes at or past `L`. -/
theorem symDiffAux_frame {T : Type} :
    ∀ (ks : List T) (hp : Heap T T) (c : ObjMap T T) (hp' : Heap T T) (c' : ObjMap T T),
      symDiffAux hp c ks = .ok (hp', c') →
      ∀ L : Nat, L ≤ hp.len → (∀ b ∈ addrsOf c, L ≤ b) →
        hp.len ≤ hp'.len ∧ (∀ b, b < L → hp'.read b = hp.read b) ∧
          (∀ b ∈ addrsOf c', L ≤ b)
  | [], hp, c, hp', c' => by
    intro hs L hL hc
    rw [symDiffAux] at hs
    cases hs
    exact ⟨le_refl _, fun _ _ => rfl, hc⟩
  | k :: rest, hp, c, hp', c' => by
    intro hs L hL hc
    rw [symDiffAux] at hs
    split at hs
    · obtain ⟨q, hdel, hs2⟩ := exceptBind_ok _ _ _ hs
      obtain ⟨hp1, c1, fl⟩ := q
      obtain ⟨hlen1, hread1⟩ := deleteE_frame hp c k hp1 c1 fl hdel
      have hsub := deleteE_addrs hp c k hp1 c1 fl hdel
      have hc1 : ∀ b ∈ addrsOf c1, L ≤ b := fun b hb => hc b (hsub b hb)
      obtain ⟨hlen2, hread2, haddr2⟩ :=
        symDiffAux_frame rest hp1 c1 hp' c' hs2 L (by omega) hc1
      refine ⟨by omega, fun b hb => ?_, haddr2⟩
      rw [hread2 b hb, hread1 b (fun hmem => by have := hc b hmem; omega)]
    · obtain ⟨q, hset, hs2⟩ := exceptBind_ok _ _ _ hs
      obtain ⟨hp1, c1⟩ := q
      obtain ⟨hlen1, hread1, haddr1⟩ := setE_frame hp c k k hp1 c1 hset
      have hc1 : ∀ b ∈ addrsOf c1, L ≤ b := by
        intro b hb
        rcases haddr1 b hb with h | h
        · exact hc b h
        · omega
      obtain ⟨hlen2, hread2, haddr2⟩ :=
        symDiffAux_frame rest hp1 c1 hp' c' hs2 L (by omega) hc1
      refine ⟨by omega, fun b hb => ?_, haddr2⟩
      rw [hread2 b hb, hread1 b (by omega) (fun hmem => by have := hc b hmem; omega)]

/-- `symmetricDifference` leaves every pre-existing heap cell unchanged. -/
theorem symmetricDifferenceE_reads {T : Type} (hps : Heap T T) (s other : ObjSet T)
    (r : Heap T T × ObjSet T) (h : symmetricDifferenceE hps s other = .ok r) :
    ∀ b, b < hps.len → r.1.read b = hps.read b := by
  obtain ⟨hp2, s2⟩ := r
  intro b hb
  simp only [symmetricDifferenceE, cloneSetE] at h
  obtain ⟨p0, hmap0, h1⟩ := exceptBind_ok _ _ _ h
  obtain ⟨q0, hcopy, heq0⟩ := exceptMap_ok _ _ _ hmap0
  obtain ⟨hp1, c1⟩ := q0
  subst heq0
  obtain ⟨hl1, hr1, ha1⟩ := copyMap_frame hps s._map noOpts hp1 c1 hcopy
  obtain ⟨ks, hks, h2⟩ := exceptBind_ok _ _ _ h1
  obtain ⟨q2, htoggle, heq2⟩ := exceptMap_ok _ _ _ h2
  obtain ⟨hp3, c3⟩ := q2
  rw [Prod.mk.injEq] at heq2
  obtain ⟨he1, he2⟩ := heq2
  obtain ⟨hlen2, hread2, haddr2⟩ :=
    symDiffAux_frame ks hp1 c1 hp3 c3 htoggle hps.len hl1 ha1
  show hp2.read b = hps.read b
  rw [← he1, hread2 b hb, hr1 b hb]

/-- **C7**: immutability of the facades. For every `ImmutableMap` mutator
(`set`, `delete`, `update`, `clear`, `sort`), every `ImmutableSet` mutator
(`add`, `delete`, `clear`) and every set-algebra operation (`union`,
`intersection`, `difference`, `symmetricDifference`), a successful call
returns a new structure and the original's observable state — its size and
the results of `get`/`has` at every query key — is exactly what it was
before the call (for the binary operations, both operands are preserved).
The address-validity hypotheses say the structures' buckets reference live
heap cells. -/
theorem c7_immutable_facades_preserve_original {K V T : Type}
    (hp : Heap K V) (m : ObjMap K V) (hps : Heap T T) (s other : ObjSet T)
    (hv : validB hp m = true) (hvs : validB hps s._map = true)
    (hvo : validB hps other._map = true) :
    (∀ (k : K) (v : V) (r : Heap K V × ObjMap K V), immSetE hp m k v = .ok r →
      ∀ q, observablesAt r.1 m q = observablesAt hp m q) ∧
    (∀ (k : K) (r : Heap K V × ObjMap K V), immDeleteE hp m k = .ok r →
      ∀ q, observablesAt r.1 m q = observablesAt hp m q) ∧
    (∀ (k : K) (f : Option V → K → V) (r : Heap K V × ObjMap K V),
      immUpdateE hp m k f = .ok r →
      ∀ q, observablesAt r.1 m q = observablesAt hp m q) ∧
    (∀ q : K, observablesAt (immClearE hp m).1 m q = observablesAt hp m q) ∧
    (∀ (cmp : Option (K → V → K → V → Int)) (r : Heap K V × ObjMap K V),
      immSortE hp m cmp = .ok r →
      ∀ q, observablesAt r.1 m q = observablesAt hp m q) ∧
    (∀ (v : T) (r : Heap T T × ObjSet T), immAddE hps s v = .ok r →
      ∀ q, observablesAt r.1 s._map q = observablesAt hps s._map q) ∧
    (∀ (v : T) (r : Heap T T × ObjSet T), immSDeleteE hps s v = .ok r →
      ∀ q, observablesAt r.1 s._map q = observablesAt hps s._map q) ∧
    (∀ r : Heap T T × ObjSet T, immSClearE hps s = .ok r →
      ∀ q, observablesAt r.1 s._map q = observablesAt hps s._map q) ∧
    (∀ r : Heap T T × ObjSet T, unionE hps s other = .ok r →
      ∀ q, observablesAt r.1 s._map q = observablesAt hps s._map q ∧
        observablesAt r.1 other._map q = observablesAt hps other._map q) ∧
    (∀ r : Heap T T × ObjSet T, intersectionE hps s other = .ok r →
      ∀ q, observablesAt r.1 s._map q = observablesAt hps s._map q ∧
        observablesAt r.1 other._map q = observablesAt hps other._map q) ∧
    (∀ r : Heap T T × ObjSet T, differenceE hps s other = .ok r →
      ∀ q, observablesAt r.1 s._map q = observablesAt hps s._map q ∧
        observablesAt r.1 other._map q = observablesAt hps other._map q) ∧
    (∀ r : Heap T T × ObjSet T, symmetricDifferenceE hps s other = .ok r →
      ∀ q, observablesAt r.1 s._map q = observablesAt hps s._map q ∧
        observablesAt r.1 other._map q = observablesAt hps other._map q) := by
  refine ⟨?_, ?_, ?_, ?_, ?_, ?_, ?_, ?_, ?_, ?_, ?_, ?_⟩
  · intro k v r h q
    exact observablesAt_congr hp r.1 m
      (fun b hb => immSetE_reads hp m k v r h b (validB_lt hp m hv b hb)) q
  · intro k r h q
    exact observablesAt_congr hp r.1 m
      (fun b hb => immDeleteE_reads hp m k r h b (validB_lt hp m hv b hb)) q
  · intro k f r h q
    exact observablesAt_congr hp r.1 m
      (fun b hb => immUpdateE_reads hp m k f r h b (validB_lt hp m hv b hb)) q
  · intro q
    rfl
  · intro cmp r h q
    exact observablesAt_congr hp r.1 m
      (fun b hb => immSortE_reads hp m cmp r h b (validB_lt hp m hv b hb)) q
  · intro v r h q
    exact observablesAt_congr hps r.1 s._map
      (fun b hb => immAddE_reads hps s v r h b (validB_lt hps s._map hvs b hb)) q
  · intro v r h q
    exact observablesAt_congr hps r.1 s._map
      (fun b hb => immSDeleteE_reads hps s v r h b (validB_lt hps s._map hvs b hb)) q
  · intro r h q
    exact observablesAt_congr hps r.1 s._map
      (fun b hb => immSClearE_reads hps s r h b (validB_lt hps s._map hvs b hb)) q
  · intro r h q
    refine ⟨observablesAt_congr hps r.1 s._map
      (fun b hb => unionE_reads hps s other r h b (validB_lt hps s._map hvs b hb)) q,
      observablesAt_congr hps r.1 other._map
      (fun b hb => unionE_reads hps s other r h b (validB_lt hps other._map hvo b hb)) q⟩
  · intro r h q
    refine ⟨observablesAt_congr hps r.1 s._map
      (fun b hb => setFilterE_reads hps s _ r h b (validB_lt hps s._map hvs b hb)) q,
      observablesAt_congr hps r.1 other._map
      (fun b hb => setFilterE_reads hps s _ r h b (validB_lt hps other._map hvo b hb)) q⟩
  · intro r h q
    refine ⟨observablesAt_congr hps r.1 s._map
      (fun b hb => setFilterE_reads hps s _ r h b (validB_lt hps s._map hvs b hb)) q,
      observablesAt_congr hps r.1 other._map
      (fun b hb => setFilterE_reads hps s _ r h b (validB_lt hps other._map hvo b hb)) q⟩
  · intro r h q
    refine ⟨observablesAt_congr hps r.1 s._map
      (fun b hb => symmetricDifferenceE_reads hps s other r h b
        (validB_lt hps s._map hvs b hb)) q,
      observablesAt_congr hps r.1 other._map
      (fun b hb => symmetricDifferenceE_reads hps s other r h b
        (validB_lt hps other._map hvo b hb)) q⟩

/-- The C7 theorem instantiated on the concrete one-entry default table:
the validity hypotheses hold there, `ImmutableMap.sort()` succeeds and
leaves the original's observables at key 1 untouched, and so does
`union` with the set itself. -/
theorem c7_witness :
    validB c7pack.1 c7pack.2 = true ∧
    validB c7pack.1 c7set._map = true ∧
    observablesAt ((immSortE c7pack.1 c7pack.2 none).toOption.getD
      (hpEmpty, dfltMapInt)).1 c7pack.2 1 = observablesAt c7pack.1 c7pack.2 1 ∧
    observablesAt ((unionE c7pack.1 c7set c7set).toOption.getD
      (hpEmpty, (⟨dfltMapInt⟩ : ObjSet Int))).1 c7set._map 1
      = observablesAt c7pack.1 c7set._map 1 :=
  ⟨rfl, rfl,
    (c7_immutable_facades_preserve_original c7pack.1 c7pack.2 c7pack.1 c7set c7set
        rfl rfl rfl).2.2.2.2.1 none
      ((immSortE c7pack.1 c7pack.2 none).toOption.getD (hpEmpty, dfltMapInt)) rfl 1,
    ((c7_immutable_facades_preserve_original c7pack.1 c7pack.2 c7pack.1 c7set c7set
        rfl rfl rfl).2.2.2.2.2.2.2.2.1
      ((unionE c7pack.1 c7set c7set).toOption.getD
        (hpEmpty, (⟨dfltMapInt⟩ : ObjSet Int))) rfl 1).1⟩
